import Mathlib

/-!
Verification of the client-side encryption envelope of `src/lib/encryption.ts`
(`encryptFile` / `decryptFile`).

The embedding models bytes as `Nat` values `< 256` in `List Nat`, strings as
Lean `String`, and the AES block cipher (a third-party primitive outside the
repository) as an abstract `BlockCipher` parameter over 16-byte blocks; the
CBC chaining, PKCS#7 padding, hex/base64/UTF-8/JSON codecs, the envelope
layout, the validation pipeline and the word-array byte-copy loop are
translated from the source.
-/

namespace SecureStorage

/-- Byte strings: each element is intended to be `< 256`. -/
abbrev Bytes := List Nat

/-! ## Base64 (model of `btoa`, `atob`, and `CryptoJS.enc.Base64`) -/

/-- Character of the standard base64 alphabet for a sextet `n < 64`. -/
def b64CharOf (n : Nat) : Char :=
  if n < 26 then Char.ofNat (65 + n)
  else if n < 52 then Char.ofNat (71 + n)
  else if n < 62 then Char.ofNat (n - 4)
  else if n = 62 then '+' else '/'

/-- Inverse of the standard base64 alphabet; `none` off the alphabet. -/
def b64RevOf (c : Char) : Option Nat :=
  let n := c.toNat
  if 65 ≤ n ∧ n ≤ 90 then some (n - 65)
  else if 97 ≤ n ∧ n ≤ 122 then some (n - 71)
  else if 48 ≤ n ∧ n ≤ 57 then some (n + 4)
  else if n = 43 then some 62
  else if n = 47 then some 63
  else none

/-- Sextet stream of a byte string (big-endian 6-bit groups, final group
zero-filled on the right), as emitted by standard base64 encoders. -/
def sextetsOf : Bytes → List Nat
  | [] => []
  | [b1] => [b1 / 4, b1 % 4 * 16]
  | [b1, b2] => [b1 / 4, b1 % 4 * 16 + b2 / 16, b2 % 16 * 4]
  | b1 :: b2 :: b3 :: rest =>
      b1 / 4 :: (b1 % 4 * 16 + b2 / 16) :: (b2 % 16 * 4 + b3 / 64) :: b3 % 64 :: sextetsOf rest

/-- Data characters of the standard base64 encoding (no padding yet). -/
def b64Chars (bs : Bytes) : List Char := (sextetsOf bs).map b64CharOf

/-- `=` padding appended by standard base64 encoders. -/
def b64PadChars (bs : Bytes) : List Char :=
  if bs.length % 3 = 1 then ['=', '=']
  else if bs.length % 3 = 2 then ['=']
  else []

/-- Model of `btoa` applied to a raw byte string (and of
`CryptoJS.enc.Base64.stringify`): standard base64 with `=` padding. -/
def stdB64String (bs : Bytes) : String := ⟨b64Chars bs ++ b64PadChars bs⟩

def isAsciiWhitespace (c : Char) : Bool :=
  c.toNat = 9 || c.toNat = 10 || c.toNat = 12 || c.toNat = 13 || c.toNat = 32

/-- Step of the forgiving-base64 decode: when the length is a multiple of
four, remove one or two trailing `=` characters. -/
def stripB64Pad (cs : List Char) : List Char :=
  if cs.length % 4 = 0 then
    match cs.reverse with
    | c1 :: c2 :: r =>
      if c1 = '=' then (if c2 = '=' then r.reverse else (c2 :: r).reverse) else cs
    | [c1] => if c1 = '=' then [] else cs
    | [] => cs
  else cs

/-- Reassemble bytes from a sextet stream, four sextets giving three bytes;
a trailing group of two or three sextets yields one or two bytes with the
leftover low bits discarded, a trailing single sextet is an error. -/
def b64Quads : List Nat → Option Bytes
  | [] => some []
  | [_] => none
  | [x, y] => some [x * 4 + y / 16]
  | [x, y, z] => some [x * 4 + y / 16, y % 16 * 16 + z / 4]
  | x :: y :: z :: w :: rest =>
      (b64Quads rest).map
        (fun bs => (x * 4 + y / 16) :: (y % 16 * 16 + z / 4) :: (z % 4 * 64 + w) :: bs)

/-- Map every character to its base64 sextet, failing off the alphabet. -/
def revMapChars : List Char → Option (List Nat)
  | [] => some []
  | c :: rest =>
    match b64RevOf c with
    | none => none
    | some x => (revMapChars rest).map (fun xs => x :: xs)

/-- Model of `atob`: the WHATWG forgiving-base64 decode (strip ASCII
whitespace, strip permitted `=` padding, reject a leftover length of one
modulo four and any character off the alphabet). -/
def forgivingB64 (s : String) : Option Bytes :=
  let cs := (s.data.filter (fun c => !isAsciiWhitespace c))
  let cs := stripB64Pad cs
  if cs.length % 4 = 1 then none
  else match revMapChars cs with
    | none => none
    | some sx => b64Quads sx

/-! ## Hex (model of `CryptoJS.enc.Hex`) -/

/-- Lowercase hex digit for `n < 16`. -/
def hexDigitChar (n : Nat) : Char :=
  if n < 10 then Char.ofNat (48 + n) else Char.ofNat (87 + n)

def byteHexChars (b : Nat) : List Char := [hexDigitChar (b / 16), hexDigitChar (b % 16)]

/-- Model of `WordArray.toString()` with the default hex encoder: two
lowercase hex digits per byte. -/
def toHexString (bs : Bytes) : String := ⟨(bs.map byteHexChars).flatten⟩

/-- Value of one hex digit (upper or lower case), `none` otherwise. -/
def hexDigitVal (c : Char) : Option Nat :=
  let n := c.toNat
  if 48 ≤ n ∧ n ≤ 57 then some (n - 48)
  else if 97 ≤ n ∧ n ≤ 102 then some (n - 87)
  else if 65 ≤ n ∧ n ≤ 70 then some (n - 55)
  else none

/-- Model of `CryptoJS.enc.Hex.parse`: two characters per byte, a trailing
lone digit parsed as its own value; invalid digits (which the library turns
into unspecified `NaN` junk) are modelled as 0 — every use in the claims
parses valid hex. -/
def hexParseChars : List Char → Bytes
  | c1 :: c2 :: rest =>
      ((hexDigitVal c1).getD 0 * 16 + (hexDigitVal c2).getD 0) :: hexParseChars rest
  | [c] => [(hexDigitVal c).getD 0]
  | [] => []

def hexParseString (s : String) : Bytes := hexParseChars s.data

/-! ## UTF-8 (model of `unescape(encodeURIComponent(.))` and its inverse) -/

/-- UTF-8 byte sequence of one scalar value. -/
def utf8CharBytes (c : Char) : Bytes :=
  let n := c.toNat
  if n < 128 then [n]
  else if n < 2048 then [192 + n / 64, 128 + n % 64]
  else if n < 65536 then [224 + n / 4096, 128 + n / 64 % 64, 128 + n % 64]
  else [240 + n / 262144, 128 + n / 4096 % 64, 128 + n / 64 % 64, 128 + n % 64]

/-- Model of `unescape(encodeURIComponent(s))` seen as bytes: the UTF-8
encoding of the string. -/
def utf8Encode (s : String) : Bytes := (s.data.map utf8CharBytes).flatten

def isCont (b : Nat) : Bool := 128 ≤ b && b ≤ 191

def utf8Lead2 (b : Nat) : Bool := 194 ≤ b && b ≤ 223

def utf8Lead3 (b : Nat) : Bool := 224 ≤ b && b ≤ 239

def utf8Lead4 (b : Nat) : Bool := 240 ≤ b && b ≤ 244

/-- Continuation-byte window of a 3-byte lead (overlong/surrogate guard). -/
def utf8Ok3 (b b2 b3 : Nat) : Bool :=
  (if b = 224 then 160 else 128) ≤ b2 && b2 ≤ (if b = 237 then 159 else 191) && isCont b3

/-- Continuation-byte window of a 4-byte lead (overlong/out-of-range guard). -/
def utf8Ok4 (b b2 b3 b4 : Nat) : Bool :=
  (if b = 240 then 144 else 128) ≤ b2 && b2 ≤ (if b = 244 then 143 else 191)
    && isCont b3 && isCont b4

def utf8Val2 (b b2 : Nat) : Char := Char.ofNat ((b - 192) * 64 + (b2 - 128))

def utf8Val3 (b b2 b3 : Nat) : Char :=
  Char.ofNat ((b - 224) * 4096 + (b2 - 128) * 64 + (b3 - 128))

def utf8Val4 (b b2 b3 b4 : Nat) : Char :=
  Char.ofNat ((b - 240) * 262144 + (b2 - 128) * 4096 + (b3 - 128) * 64 + (b4 - 128))

/-- Decode one UTF-8 scalar from the front, returning it and the rest. -/
def utf8Step : Bytes → Option (Char × Bytes)
  | [] => none
  | b :: rest =>
    if b < 128 then some (Char.ofNat b, rest)
    else if utf8Lead2 b then
      match rest with
      | b2 :: rest2 => if isCont b2 then some (utf8Val2 b b2, rest2) else none
      | [] => none
    else if utf8Lead3 b then
      match rest with
      | b2 :: b3 :: rest3 => if utf8Ok3 b b2 b3 then some (utf8Val3 b b2 b3, rest3) else none
      | _ => none
    else if utf8Lead4 b then
      match rest with
      | b2 :: b3 :: b4 :: rest4 =>
        if utf8Ok4 b b2 b3 b4 then some (utf8Val4 b b2 b3 b4, rest4) else none
      | _ => none
    else none

def utf8DecodeAux : Nat → Bytes → Option (List Char)
  | _, [] => some []
  | 0, _ :: _ => none
  | fuel + 1, b :: rest =>
    match utf8Step (b :: rest) with
    | none => none
    | some (c, rest2) => (utf8DecodeAux fuel rest2).map (fun cs => c :: cs)

/-- Model of `decodeURIComponent(escape(.))`: the WHATWG UTF-8 decode,
`none` on malformed input (the JS pipeline throws there). Every step
consumes at least one byte, so the input length is enough fuel. -/
def utf8DecodeChars (bs : Bytes) : Option (List Char) := utf8DecodeAux bs.length bs

/-! ## JSON (model of `JSON.parse` / `JSON.stringify`) -/

/-- JSON values. Numbers are modelled as integers: the envelope only ever
carries the natural `s` field, and the parser below rejects fractional and
exponent forms (a modelling restriction, noted at `pNumAux`). -/
inductive Json where
  | null : Json
  | bool : Bool → Json
  | num : Int → Json
  | str : String → Json
  | arr : List Json → Json
  | obj : List (String × Json) → Json

def isJsonWs (c : Char) : Bool := c = ' ' || c = '\t' || c = '\n' || c = '\r'

def skipWs (cs : List Char) : List Char := cs.dropWhile isJsonWs

def isDigitChar (c : Char) : Bool := 48 ≤ c.toNat && c.toNat ≤ 57

/-- Consume a run of decimal digits, folding them onto `acc`. -/
def pDigits : List Char → Nat → Nat × List Char
  | c :: rest, acc =>
      if isDigitChar c then pDigits rest (acc * 10 + (c.toNat - 48)) else (acc, c :: rest)
  | [], acc => (acc, [])

/-- Integer part of a JSON number (leading-zero rule of the JSON grammar
included). Fractions and exponents are not modelled: on them the entire
parse fails, whereas `JSON.parse` would accept a non-integral number — no
claim exercises such an envelope. -/
def pNumAux : List Char → Option (Nat × List Char)
  | c :: rest =>
    if c = '0' then
      match rest with
      | c2 :: r2 => if isDigitChar c2 then none else some (0, c2 :: r2)
      | [] => some (0, [])
    else if isDigitChar c then some (pDigits (c :: rest) 0)
    else none
  | [] => none

def pNumber (cs : List Char) : Option (Json × List Char) :=
  match cs with
  | c :: rest =>
    if c = '-' then (pNumAux rest).map (fun p => (Json.num (-(p.1 : Int)), p.2))
    else (pNumAux (c :: rest)).map (fun p => (Json.num (p.1 : Int), p.2))
  | [] => none

def hex4Val (a b c d : Char) : Option Nat := do
  let x1 ← hexDigitVal a
  let x2 ← hexDigitVal b
  let x3 ← hexDigitVal c
  let x4 ← hexDigitVal d
  pure (x1 * 4096 + x2 * 256 + x3 * 16 + x4)

/-- Body of a JSON string literal, positioned after the opening quote;
returns the decoded characters and the input after the closing quote.
`\uXXXX` escapes are accepted for scalar values only (surrogate pairs are
not modelled; no claim exercises them). -/
def escCode (e : Char) : Option Char :=
  if e = '"' then some '"'
  else if e = '\\' then some '\\'
  else if e = '/' then some '/'
  else if e = 'b' then some (Char.ofNat 8)
  else if e = 'f' then some (Char.ofNat 12)
  else if e = 'n' then some (Char.ofNat 10)
  else if e = 'r' then some (Char.ofNat 13)
  else if e = 't' then some (Char.ofNat 9)
  else none

/-- One token of a JSON string literal body: `some (none, rest)` at the
closing quote, `some (some ch, rest)` for one content character (escaped or
plain), `none` on malformed input. -/
def pStrTok : List Char → Option (Option Char × List Char)
  | [] => none
  | c :: rest =>
    if c = '"' then some (none, rest)
    else if c = '\\' then
      match rest with
      | [] => none
      | e :: rest1 =>
        if e = 'u' then
          match rest1 with
          | a :: b :: c2 :: d :: rest2 =>
            match hex4Val a b c2 d with
            | none => none
            | some n =>
              if n < 55296 ∨ 57344 ≤ n then some (some (Char.ofNat n), rest2) else none
          | _ => none
        else
          match escCode e with
          | none => none
          | some c2 => some (some c2, rest1)
    else if c.toNat < 32 then none
    else some (some c, rest)

def pStrAux : Nat → List Char → Option (List Char × List Char)
  | 0, _ => none
  | fuel + 1, cs =>
    match pStrTok cs with
    | none => none
    | some (none, rest) => some ([], rest)
    | some (some ch, rest) => (pStrAux fuel rest).map (fun p => (ch :: p.1, p.2))

/-- Body of a JSON string literal, positioned after the opening quote;
returns the decoded characters and the input after the closing quote. Every
token consumes at least one character, so the input length is enough fuel. -/
def pStrChars (cs : List Char) : Option (List Char × List Char) := pStrAux cs.length cs

/-- Require the exact characters `pat` as a prefix of `cs`. -/
def expectChars : List Char → List Char → Option (List Char)
  | [], cs => some cs
  | p :: ps, c :: cs => if c = p then expectChars ps cs else none
  | _ :: _, [] => none

mutual

/-- Fueled JSON value parser: one fuel unit is consumed on entering a value
and on each array element / object member step, so any fuel of at least
`input length + 1` suffices. -/
def pValue : Nat → List Char → Option (Json × List Char)
  | 0, _ => none
  | fuel + 1, cs =>
    match skipWs cs with
    | [] => none
    | c :: r =>
      if c = 'n' then (expectChars ['u', 'l', 'l'] r).map (fun r2 => (.null, r2))
      else if c = 't' then (expectChars ['r', 'u', 'e'] r).map (fun r2 => (.bool true, r2))
      else if c = 'f' then (expectChars ['a', 'l', 's', 'e'] r).map (fun r2 => (.bool false, r2))
      else if c = '"' then (pStrChars r).map (fun p => (.str ⟨p.1⟩, p.2))
      else if c = '[' then
        match skipWs r with
        | [] => none
        | c2 :: r2 =>
          if c2 = ']' then some (.arr [], r2)
          else (pElems fuel (c2 :: r2)).map (fun p => (.arr p.1, p.2))
      else if c = '\x7b' then
        match skipWs r with
        | [] => none
        | c2 :: r2 =>
          if c2 = '\x7d' then some (.obj [], r2)
          else (pMembers fuel (c2 :: r2)).map (fun p => (.obj p.1, p.2))
      else pNumber (c :: r)

def pElems : Nat → List Char → Option (List Json × List Char)
  | 0, _ => none
  | fuel + 1, cs =>
    match pValue fuel cs with
    | none => none
    | some (v, r) =>
      match skipWs r with
      | [] => none
      | c :: r2 =>
        if c = ',' then (pElems fuel r2).map (fun p => (v :: p.1, p.2))
        else if c = ']' then some ([v], r2)
        else none

def pMembers : Nat → List Char → Option (List (String × Json) × List Char)
  | 0, _ => none
  | fuel + 1, cs =>
    match skipWs cs with
    | [] => none
    | c :: r =>
      if c = '"' then
        match pStrChars r with
        | none => none
        | some (k, r1) =>
          match skipWs r1 with
          | [] => none
          | c2 :: r2 =>
            if c2 = ':' then
              match pValue fuel r2 with
              | none => none
              | some (v, r3) =>
                match skipWs r3 with
                | [] => none
                | c3 :: r4 =>
                  if c3 = ',' then (pMembers fuel r4).map (fun p => ((⟨k⟩, v) :: p.1, p.2))
                  else if c3 = '\x7d' then some ([(⟨k⟩, v)], r4)
                  else none
            else none
      else none

end

/-- Model of `JSON.parse`: parse one value, require only whitespace after. -/
def jsonParse (s : String) : Option Json :=
  match pValue (s.length + 1) s.data with
  | some (v, rest) => if skipWs rest = [] then some v else none
  | none => none

/-! ## JSON stringify for the envelope object -/

def natDigitsAux : Nat → Nat → List Nat
  | 0, _ => []
  | fuel + 1, n => if n < 10 then [n] else natDigitsAux fuel (n / 10) ++ [n % 10]

/-- Base-10 digits of a natural number, most significant first. -/
def natDigits (n : Nat) : List Nat := natDigitsAux (n + 1) n

/-- Decimal digit characters of a natural number, as `JSON.stringify`
prints a non-negative integer. -/
def natDigitChars (n : Nat) : List Char := (natDigits n).map (fun d => Char.ofNat (48 + d))

/-- One character of a JSON string literal body, escaped exactly as
`JSON.stringify` escapes it. -/
def escapeChar (c : Char) : List Char :=
  if c = '"' then ['\\', '"']
  else if c = '\\' then ['\\', '\\']
  else if c.toNat = 8 then ['\\', 'b']
  else if c.toNat = 9 then ['\\', 't']
  else if c.toNat = 10 then ['\\', 'n']
  else if c.toNat = 12 then ['\\', 'f']
  else if c.toNat = 13 then ['\\', 'r']
  else if c.toNat < 32 then
    ['\\', 'u', '0', '0', hexDigitChar (c.toNat / 16), hexDigitChar (c.toNat % 16)]
  else [c]

def jsonQuote (s : String) : List Char := '"' :: (s.data.map escapeChar).flatten ++ ['"']

/-- Model of `JSON.stringify({k: ., i: ., d: ., s: .})` on the envelope
object built by `encryptFile`. -/
def envelopeJsonChars (k i d : String) (s : Nat) : List Char :=
  '\x7b' :: '"' :: 'k' :: '"' :: ':' :: (jsonQuote k
    ++ ',' :: '"' :: 'i' :: '"' :: ':' :: (jsonQuote i
    ++ ',' :: '"' :: 'd' :: '"' :: ':' :: (jsonQuote d
    ++ ',' :: '"' :: 's' :: '"' :: ':' :: (natDigitChars s ++ ['\x7d']))))

def envelopeJsonString (k i d : String) (s : Nat) : String := ⟨envelopeJsonChars k i d s⟩

/-! ## Block cipher, CBC mode, PKCS#7 padding

The AES core is a third-party primitive (`CryptoJS.AES`), outside the
repository; it is modelled as an abstract pair of keyed maps on 16-byte
blocks. The CBC chaining and PKCS#7 padding that `encryptFile` requests
(`mode: CBC, padding: Pkcs7`) are modelled concretely below. -/

structure BlockCipher where
  enc : Bytes → Bytes → Bytes
  dec : Bytes → Bytes → Bytes

/-- The cipher hypotheses the round-trip needs: on every 16-byte block of
bytes, decryption inverts encryption and encryption returns 16 bytes. -/
def GoodCipherKey (C : BlockCipher) (key : Bytes) : Prop :=
  ∀ b : Bytes, b.length = 16 → (∀ x ∈ b, x < 256) →
    C.dec key (C.enc key b) = b ∧ (C.enc key b).length = 16 ∧ ∀ x ∈ C.enc key b, x < 256

/-- Trivial cipher used to instantiate theorems at concrete inputs. -/
def idCipher : BlockCipher := ⟨fun _ b => b, fun _ b => b⟩

/-- PKCS#7: pad up to the next 16-byte boundary with the pad length. -/
def pkcs7Pad (bs : Bytes) : Bytes :=
  bs ++ List.replicate (16 - bs.length % 16) (16 - bs.length % 16)

def chunks16Aux : Nat → Bytes → List Bytes
  | 0, _ => []
  | fuel + 1, bs => if bs.length < 16 then [] else bs.take 16 :: chunks16Aux fuel (bs.drop 16)

/-- Split into complete 16-byte blocks (an incomplete trailing chunk is not
processed by the block algorithm). -/
def chunks16 (bs : Bytes) : List Bytes := chunks16Aux bs.length bs

def xorBytes (a b : Bytes) : Bytes := List.zipWith (fun x y => x ^^^ y) a b

def cbcEncBlocks (C : BlockCipher) (key : Bytes) : Bytes → List Bytes → List Bytes
  | _, [] => []
  | prev, b :: rest =>
    let c := C.enc key (xorBytes b prev)
    c :: cbcEncBlocks C key c rest

/-- CBC encryption over complete blocks (model of `CryptoJS.AES.encrypt`
with CBC mode, applied after padding). -/
def cbcEncrypt (C : BlockCipher) (key iv data : Bytes) : Bytes :=
  (cbcEncBlocks C key iv (chunks16 data)).flatten

def cbcDecBlocks (C : BlockCipher) (key : Bytes) : Bytes → List Bytes → List Bytes
  | _, [] => []
  | prev, c :: rest => xorBytes (C.dec key c) prev :: cbcDecBlocks C key c rest

/-- CBC decryption over complete blocks. The library unpad step only lowers
the `sigBytes` count of the result; `decryptFile` ignores that count and
reads the full word array, so the padded plaintext is the faithful model of
`decrypted.words`. -/
def cbcDecrypt (C : BlockCipher) (key iv data : Bytes) : Bytes :=
  (cbcDecBlocks C key iv (chunks16 data)).flatten

/-! ## Word arrays (model of `CryptoJS.lib.WordArray`) -/

/-- Pack bytes big-endian into 32-bit words, the final partial word
zero-filled low, as `WordArray.create` does. -/
def wordsOfBytes : Bytes → List Nat
  | b1 :: b2 :: b3 :: b4 :: rest =>
      (b1 * 16777216 + b2 * 65536 + b3 * 256 + b4) :: wordsOfBytes rest
  | [b1, b2, b3] => [b1 * 16777216 + b2 * 65536 + b3 * 256]
  | [b1, b2] => [b1 * 16777216 + b2 * 65536]
  | [b1] => [b1 * 16777216]
  | [] => []

/-- The four big-endian bytes of a 32-bit word, as the extraction loop
computes them: `(word >>> (24 - j * 8)) & 0xff`. -/
def wordBytes (w : Nat) : Bytes :=
  [w / 16777216 % 256, w / 65536 % 256, w / 256 % 256, w % 256]

/-- Faithful model of the byte-copy loop of `decryptFile`: `u8` starts as
`s` zero bytes, and the loop overwrites offsets `0..` with word bytes while
`offset < s` and words remain. -/
def copyLoop : List Nat → Nat → Bytes
  | _, 0 => []
  | [], s => List.replicate s 0
  | w :: ws, s => (wordBytes w).take s ++ copyLoop ws (s - 4)

/-! ## The encoder (`encryptFile`) -/

def MAX_FILE_SIZE : Nat := 10 * 1024 * 1024

def toUrlChar (c : Char) : Char := if c = '+' then '-' else if c = '/' then '_' else c

def toStdChar (c : Char) : Char := if c = '-' then '+' else if c = '_' then '/' else c

/-- Model of `.replace(/=+$/, '')`. -/
def stripTrailingEq (cs : List Char) : List Char :=
  (cs.reverse.dropWhile (fun c => c = '=')).reverse

/-- Model of the `while (length % 4) += '='` padding restore loop. -/
def addPadChars (cs : List Char) : List Char :=
  cs ++ List.replicate ((4 - cs.length % 4) % 4) '='

/-- Transport encoding of `encryptFile`: `btoa` of the UTF-8 bytes, then
`+ → -`, `/ → _`, and strip the trailing `=` padding. -/
def encodeTransport (jsonStr : String) : String :=
  let jb := utf8Encode jsonStr
  ⟨stripTrailingEq ((b64Chars jb ++ b64PadChars jb).map toUrlChar)⟩

/-- The successful branch of `encryptFile` for a given fresh `key`/`iv`:
encrypt with CBC/PKCS#7, assemble `{k, i, d, s}` with hex key and iv,
base64 ciphertext and the plaintext length, stringify to JSON, transport
encode. -/
def encryptFileCore (C : BlockCipher) (key iv payload : Bytes) : String :=
  let ct := cbcEncrypt C key iv (pkcs7Pad payload)
  encodeTransport
    (envelopeJsonString (toHexString key) (toHexString iv) (stdB64String ct) payload.length)

/-- `encryptFile` with its randomness supply made explicit: the size guard
runs first and returns the supply untouched; otherwise a 32-byte key and a
16-byte IV are drawn from the front of the supply. -/
def encryptFileR (C : BlockCipher) (payload : Bytes) (rand : Bytes) :
    Except String String × Bytes :=
  if payload.length > MAX_FILE_SIZE then (.error "File size exceeds 10MB limit", rand)
  else
    let key := rand.take 32
    let rand1 := rand.drop 32
    let iv := rand1.take 16
    let rand2 := rand1.drop 16
    (.ok (encryptFileCore C key iv payload), rand2)

/-! ## The decoder (`decryptFile`) -/

/-- The distinct failures `decryptFile` can raise before delivery. The
`nullAccess` message is engine dependent (a `TypeError` from reading a
property of `null`); its exact text is not relied upon. -/
inductive JsError where
  | emptyInput : JsError
  | malformedTransport : JsError
  | invalidStructure : JsError
  | incompleteEnvelope : JsError
  | nullAccess : JsError
  | invalidArrayLength : JsError
deriving DecidableEq

def JsError.message : JsError → String
  | .emptyInput => "No data provided for decryption"
  | .malformedTransport => "Invalid file data format"
  | .invalidStructure => "Invalid file data structure"
  | .incompleteEnvelope => "Incomplete file data"
  | .nullAccess => "Cannot read properties of null"
  | .invalidArrayLength => "Invalid typed array length"

/-- Transport decode of `decryptFile`: `- → +`, `_ → /`, restore `=`
padding to a multiple of four, `atob`, UTF-8 decode. -/
def transportDecode (data : String) : Option String :=
  match forgivingB64 ⟨addPadChars (data.data.map toStdChar)⟩ with
  | none => none
  | some bytes =>
    match utf8DecodeChars bytes with
    | none => none
    | some cs => some ⟨cs⟩

/-- JS member lookup on a parsed JSON value: on an object the last
occurrence of the key wins (as `JSON.parse` builds the object), on other
non-null values the property is absent; the null case is handled by the
caller (reading it throws). -/
def lookupLast : List (String × Json) → String → Option Json
  | [], _ => none
  | (k, v) :: rest, key =>
    match lookupLast rest key with
    | some x => some x
    | none => if k = key then some v else none

def getF (v : Json) (key : String) : Option Json :=
  match v with
  | .obj kvs => lookupLast kvs key
  | _ => none

/-- JS falsiness of a (possibly absent) field value. -/
def jsFalsy : Option Json → Bool
  | none => true
  | some .null => true
  | some (.bool b) => !b
  | some (.num n) => n == 0
  | some (.str s) => s == ""
  | some (.arr _) => false
  | some (.obj _) => false

/-- The field-presence check of `decryptFile`: the truthiness test
`!data.k || !data.i || !data.d || !data.s`, which on a `null` parse result
throws a `TypeError` at the first property read. -/
def validateFields (v : Json) : Except JsError Json :=
  match v with
  | .null => .error .nullAccess
  | _ =>
    if jsFalsy (getF v "k") || jsFalsy (getF v "i") || jsFalsy (getF v "d")
        || jsFalsy (getF v "s") then
      .error .incompleteEnvelope
    else .ok v

/-- The JSON-parse stage of `decryptFile` followed by the field check. -/
def validateJson (jsonStr : String) : Except JsError Json :=
  match jsonParse jsonStr with
  | none => .error .invalidStructure
  | some v => validateFields v

/-- The validation pipeline of `decryptFile`, in source order: empty input,
transport decode, JSON parse, field-presence check. -/
def decryptFileValidate (data : String) : Except JsError Json :=
  if data = "" then .error .emptyInput
  else
    match transportDecode data with
    | none => .error .malformedTransport
    | some jsonStr => validateJson jsonStr

/-- Coercions the source applies to the validated fields: `Hex.parse` and
`Base64.parse` expect strings and `new Uint8Array` a number; a field of any
other shape would feed the library junk, modelled by the empty default —
after validation every claim instantiates these at the proper shapes. -/
def asString : Option Json → String
  | some (.str s) => s
  | _ => ""

def asInt : Option Json → Int
  | some (.num n) => n
  | _ => 0

/-- The word array `decrypted.words` seen by the byte-copy loop: key and
IV parsed from hex, ciphertext from base64, CBC decryption, words packed
big-endian. -/
def decryptedWords (C : BlockCipher) (v : Json) : List Nat :=
  wordsOfBytes
    (cbcDecrypt C (hexParseString (asString (getF v "k")))
      (hexParseString (asString (getF v "i")))
      ((forgivingB64 (asString (getF v "d"))).getD []))

/-- Post-validation phase of `decryptFile`: parse key and IV from hex,
parse the ciphertext from base64, CBC-decrypt, and run the byte-copy loop
over the decrypted words for exactly `s` output bytes. `new Uint8Array(s)`
converts its length with `ToIndex`, which mandates a `RangeError` for a
negative length and for any length of `2 ^ 53` or more (an engine may
reject smaller lengths at its own typed-array cap; only the mandated
bound is modelled). -/
def decryptProcess (C : BlockCipher) (v : Json) : Except JsError Bytes :=
  let s := asInt (getF v "s")
  if s < 0 ∨ 2 ^ 53 ≤ s then .error .invalidArrayLength
  else .ok (copyLoop (decryptedWords C v) s.toNat)

/-- The bytes `decryptFile` places into the delivered `Blob`, or the
validation failure. -/
def decryptFileCore (C : BlockCipher) (data : String) : Except JsError Bytes :=
  match decryptFileValidate data with
  | .error e => .error e
  | .ok v => decryptProcess C v

/-- `decryptFile` as observed by the caller: the surrounding `catch`
re-raises every failure with the message prefix `Failed to decrypt file: `. -/
def decryptFile (C : BlockCipher) (data : String) : Except String Bytes :=
  match decryptFileCore C data with
  | .error e => .error ("Failed to decrypt file: " ++ e.message)
  | .ok bs => .ok bs

/-! ## Auxiliary notions used by the theorems -/

/-- Characters that JSON escapes leave untouched and that are their own
UTF-8 encoding: printable ASCII other than `"` and `\`. Hex, base64 and
digit characters are all plain. -/
def plainChar (c : Char) : Bool :=
  32 ≤ c.toNat && c.toNat < 128 && !(c == '"') && !(c == '\\')

/-- The JSON value `JSON.parse` recovers from a well-formed envelope. -/
def envJson (k i d : String) (s : Int) : Json :=
  .obj [("k", .str k), ("i", .str i), ("d", .str d), ("s", .num s)]

/-- Spec-side definition (§6 wire format): the URL-safe base64 alphabet. -/
def b64UrlCharOf (n : Nat) : Char :=
  if n = 62 then '-' else if n = 63 then '_' else b64CharOf n

/-- Spec-side definition: base64 over the URL-safe alphabet with no padding
characters, emitted directly rather than by post-processing `btoa`. -/
def specBase64UrlNoPad (bs : Bytes) : String := ⟨(sextetsOf bs).map b64UrlCharOf⟩

/-- Spec-side definition of the wire format, following the specification:
`base64url_nopad( JSON({ k: hex(key), i: hex(iv), d: cipher_text, s: len }) )`. -/
def specWireFormat (key iv ct : Bytes) (len : Nat) : String :=
  specBase64UrlNoPad
    (utf8Encode (envelopeJsonString (toHexString key) (toHexString iv) (stdB64String ct) len))

/-- A concrete envelope used to instantiate the length-recovery theorem:
the encoder run on the five-byte payload with the all-zero key and IV. -/
def c7data : String :=
  encryptFileCore idCipher (List.replicate 32 0) (List.replicate 16 0) [1, 2, 3, 4, 5]

/-- The envelope object that `c7data` validates to. -/
def c7v : Json :=
  envJson (toHexString (List.replicate 32 0)) (toHexString (List.replicate 16 0))
    (stdB64String (cbcEncrypt idCipher (List.replicate 32 0) (List.replicate 16 0)
      (pkcs7Pad [1, 2, 3, 4, 5]))) 5

/-! # Theorems -/

theorem data_mk (l : List Char) : (String.mk l).data = l := rfl

theorem length_mk (l : List Char) : (String.mk l).length = l.length := rfl

/-! ## Character facts -/

theorem b64CharOf_props : ∀ n : Nat, n < 64 →
    b64RevOf (b64CharOf n) = some n ∧
    isAsciiWhitespace (b64CharOf n) = false ∧
    b64CharOf n ≠ '=' ∧
    toStdChar (toUrlChar (b64CharOf n)) = b64CharOf n ∧
    plainChar (b64CharOf n) = true ∧
    isJsonWs (b64CharOf n) = false ∧
    (b64CharOf n).toNat < 128 ∧
    b64UrlCharOf n = toUrlChar (b64CharOf n) := by
  decide

/-! ## Base64 round trip -/

theorem sextetsOf_lt (bs : Bytes) (hb : ∀ b ∈ bs, b < 256) : ∀ x ∈ sextetsOf bs, x < 64 := by
  induction bs using sextetsOf.induct with
  | case1 => simp [sextetsOf]
  | case2 b1 =>
    have := hb b1 (by simp)
    simp only [sextetsOf, List.mem_cons, List.not_mem_nil, or_false]
    rintro x (rfl | rfl) <;> omega
  | case3 b1 b2 =>
    have h1 := hb b1 (by simp)
    have h2 := hb b2 (by simp)
    simp only [sextetsOf, List.mem_cons, List.not_mem_nil, or_false]
    rintro x (rfl | rfl | rfl) <;> omega
  | case4 b1 b2 b3 rest ih =>
    have h1 := hb b1 (by simp)
    have h2 := hb b2 (by simp)
    have h3 := hb b3 (by simp)
    have ih' := ih (fun b hbmem => hb b (by simp [hbmem]))
    simp only [sextetsOf, List.mem_cons]
    rintro x (rfl | rfl | rfl | rfl | hx)
    · omega
    · omega
    · omega
    · omega
    · exact ih' x hx

theorem split_div_mod (a c k : Nat) (hk : 0 < k) (hc : c < k) :
    (a * k + c) / k = a ∧ (a * k + c) % k = c := by
  constructor
  · rw [Nat.add_comm, Nat.add_mul_div_right _ _ hk, Nat.div_eq_of_lt hc]
    omega
  · rw [Nat.add_comm, Nat.add_mul_mod_self_right, Nat.mod_eq_of_lt hc]

theorem b64Quads_sextetsOf (bs : Bytes) (hb : ∀ b ∈ bs, b < 256) :
    b64Quads (sextetsOf bs) = some bs := by
  induction bs using sextetsOf.induct with
  | case1 => rfl
  | case2 b1 =>
    have h1 := hb b1 (by simp)
    have e1 : b1 % 4 * 16 / 16 = b1 % 4 := Nat.mul_div_cancel _ (by omega)
    simp only [sextetsOf, b64Quads, e1, Option.some.injEq]
    congr 1
    omega
  | case3 b1 b2 =>
    have h1 := hb b1 (by simp)
    have h2 := hb b2 (by simp)
    have e1 := split_div_mod (b1 % 4) (b2 / 16) 16 (by omega) (by omega)
    have e3 : b2 % 16 * 4 / 4 = b2 % 16 := Nat.mul_div_cancel _ (by omega)
    simp only [sextetsOf, b64Quads, e1.1, e1.2, e3, Option.some.injEq]
    congr 2
    · omega
    · omega
  | case4 b1 b2 b3 rest ih =>
    have h1 := hb b1 (by simp)
    have h2 := hb b2 (by simp)
    have h3 := hb b3 (by simp)
    have ih' := ih (fun b hbmem => hb b (by simp [hbmem]))
    have e1 := split_div_mod (b1 % 4) (b2 / 16) 16 (by omega) (by omega)
    have e3 := split_div_mod (b2 % 16) (b3 / 64) 4 (by omega) (by omega)
    simp only [sextetsOf, b64Quads, ih', e1.1, e1.2, e3.1, e3.2, Option.map_some,
      Option.map_some', Option.some.injEq]
    congr 3
    · omega
    · omega
    · omega

theorem revMapChars_map_b64CharOf (sx : List Nat) (hx : ∀ x ∈ sx, x < 64) :
    revMapChars (sx.map b64CharOf) = some sx := by
  induction sx with
  | nil => rfl
  | cons a l ih =>
    have ha := (b64CharOf_props a (hx a (by simp))).1
    have ih' := ih (fun x hxm => hx x (by simp [hxm]))
    simp [revMapChars, ha, ih']

theorem mem_b64Chars (bs : Bytes) (hb : ∀ b ∈ bs, b < 256) :
    ∀ c ∈ b64Chars bs, ∃ n, n < 64 ∧ c = b64CharOf n := by
  intro c hc
  simp only [b64Chars, List.mem_map] at hc
  obtain ⟨n, hn, rfl⟩ := hc
  exact ⟨n, sextetsOf_lt bs hb n hn, rfl⟩

theorem b64PadChars_cons3 (b1 b2 b3 : Nat) (rest : Bytes) :
    b64PadChars (b1 :: b2 :: b3 :: rest) = b64PadChars rest := by
  have h3 : (rest.length + 1 + 1 + 1) % 3 = rest.length % 3 := by omega
  simp [b64PadChars, List.length_cons, h3]

theorem b64Chars_cons3_length (b1 b2 b3 : Nat) (rest : Bytes) :
    (b64Chars (b1 :: b2 :: b3 :: rest)).length = 4 + (b64Chars rest).length := by
  simp [b64Chars, sextetsOf]
  omega

theorem b64Chars_lengths : ∀ bs : Bytes,
    ((b64Chars bs).length + (b64PadChars bs).length) % 4 = 0 ∧
    ((b64Chars bs).length % 4 = 0 ∨ (b64Chars bs).length % 4 = 2 ∨
      (b64Chars bs).length % 4 = 3) ∧
    (b64PadChars bs).length ≤ 2 := by
  intro bs
  induction bs using sextetsOf.induct with
  | case1 => simp [b64Chars, sextetsOf, b64PadChars]
  | case2 b1 => simp [b64Chars, sextetsOf, b64PadChars]
  | case3 b1 b2 => simp [b64Chars, sextetsOf, b64PadChars]
  | case4 b1 b2 b3 rest ih =>
    rw [b64Chars_cons3_length, b64PadChars_cons3]
    omega

theorem mem_b64PadChars (bs : Bytes) : ∀ c ∈ b64PadChars bs, c = '=' := by
  intro c hc
  unfold b64PadChars at hc
  split at hc
  · simpa using hc
  · split at hc
    · simpa using hc
    · simp at hc

theorem stripB64Pad_append (cs p : List Char) (hcs : ∀ c ∈ cs, c ≠ '=')
    (hp : ∀ c ∈ p, c = '=') (hple : p.length ≤ 2)
    (hlen : (cs.length + p.length) % 4 = 0) :
    stripB64Pad (cs ++ p) = cs := by
  have hlen' : (cs ++ p).length % 4 = 0 := by
    rw [List.length_append]; exact hlen
  match p, hple with
  | [], _ =>
    rw [List.append_nil]
    unfold stripB64Pad
    rw [if_pos (by simpa using hlen')]
    cases hr : cs.reverse with
    | nil => rfl
    | cons c1 r1 =>
      have hc1 : c1 ≠ '=' := hcs c1 (by rw [← List.mem_reverse, hr]; simp)
      cases r1 with
      | nil => simp [hc1]
      | cons c2 r2 => simp [hc1]
  | [a], _ =>
    have ha : a = '=' := hp a (by simp)
    subst ha
    unfold stripB64Pad
    rw [if_pos (by simpa using hlen')]
    rw [List.reverse_append]
    cases hr : cs.reverse with
    | nil =>
      have : cs = [] := by simpa using congrArg List.reverse hr
      subst this
      simp
    | cons c2 r2 =>
      have hc2 : c2 ≠ '=' := hcs c2 (by rw [← List.mem_reverse, hr]; simp)
      simp only [List.reverse_cons, List.reverse_nil, List.nil_append, List.singleton_append, hr]
      simp [hc2]
      rw [← List.reverse_cons, ← hr, List.reverse_reverse]
  | [a, b], _ =>
    have ha : a = '=' := hp a (by simp)
    have hb : b = '=' := hp b (by simp)
    subst ha; subst hb
    unfold stripB64Pad
    rw [if_pos (by simpa using hlen')]
    rw [List.reverse_append]
    simp

theorem mod4_ne_one (bs : Bytes) (p : List Char) (hple : p.length ≤ 2)
    (hlen : ((b64Chars bs).length + p.length) % 4 = 0) :
    (b64Chars bs).length % 4 ≠ 1 := by
  rcases (b64Chars_lengths bs).2.1 with h | h | h <;> omega

theorem forgivingB64_encode (bs : Bytes) (p : List Char) (hb : ∀ b ∈ bs, b < 256)
    (hp : ∀ c ∈ p, c = '=') (hple : p.length ≤ 2)
    (hlen : ((b64Chars bs).length + p.length) % 4 = 0) :
    forgivingB64 ⟨b64Chars bs ++ p⟩ = some bs := by
  have hmem := mem_b64Chars bs hb
  have hfilter :
      (b64Chars bs ++ p).filter (fun c => !isAsciiWhitespace c) = b64Chars bs ++ p := by
    rw [List.filter_eq_self]
    intro c hc
    rcases List.mem_append.1 hc with h | h
    · obtain ⟨n, hn, rfl⟩ := hmem c h
      simp [(b64CharOf_props n hn).2.1]
    · rw [hp c h]; rfl
  have hne : ∀ c ∈ b64Chars bs, c ≠ '=' := by
    intro c hc
    obtain ⟨n, hn, rfl⟩ := hmem c hc
    exact (b64CharOf_props n hn).2.2.1
  have hstrip := stripB64Pad_append _ _ hne hp hple hlen
  have hrev : revMapChars (b64Chars bs) = some (sextetsOf bs) :=
    revMapChars_map_b64CharOf _ (sextetsOf_lt bs hb)
  unfold forgivingB64
  simp only [data_mk]
  rw [hfilter, hstrip, if_neg (mod4_ne_one bs p hple hlen), hrev]
  exact b64Quads_sextetsOf bs hb

/-- `atob` inverts `btoa` on every byte string. -/
theorem forgivingB64_stdB64 (bs : Bytes) (hb : ∀ b ∈ bs, b < 256) :
    forgivingB64 (stdB64String bs) = some bs :=
  forgivingB64_encode bs (b64PadChars bs) hb (mem_b64PadChars bs)
    (b64Chars_lengths bs).2.2 (b64Chars_lengths bs).1

/-! ## UTF-8 -/

theorem utf8CharBytes_lt (c : Char) : ∀ b ∈ utf8CharBytes c, b < 256 := by
  have hc : c.toNat < 1114112 := by
    rcases c.valid with h | ⟨h1, h2⟩
    · exact Nat.lt_trans h (by norm_num)
    · exact h2
  intro b hb
  simp only [utf8CharBytes] at hb
  split at hb
  · simp at hb; omega
  · split at hb
    · simp only [List.mem_cons, List.not_mem_nil, or_false] at hb
      rcases hb with rfl | rfl <;> omega
    · split at hb
      · simp only [List.mem_cons, List.not_mem_nil, or_false] at hb
        rcases hb with rfl | rfl | rfl <;> omega
      · simp only [List.mem_cons, List.not_mem_nil, or_false] at hb
        rcases hb with rfl | rfl | rfl | rfl <;> omega

theorem utf8Encode_lt (s : String) : ∀ b ∈ utf8Encode s, b < 256 := by
  intro b hb
  rw [utf8Encode, List.mem_flatten] at hb
  obtain ⟨l, hl, hbl⟩ := hb
  rw [List.mem_map] at hl
  obtain ⟨c, _, rfl⟩ := hl
  exact utf8CharBytes_lt c b hbl

theorem utf8CharBytes_ascii (c : Char) (h : c.toNat < 128) : utf8CharBytes c = [c.toNat] := by
  unfold utf8CharBytes
  rw [if_pos h]

theorem utf8Encode_ascii_chars (l : List Char) (h : ∀ c ∈ l, c.toNat < 128) :
    (l.map utf8CharBytes).flatten = l.map Char.toNat := by
  induction l with
  | nil => rfl
  | cons c t ih =>
    rw [List.map_cons, List.flatten_cons, utf8CharBytes_ascii c (h c (by simp)),
      List.map_cons, ih (fun c hc => h c (by simp [hc]))]
    rfl

theorem utf8Step_ascii (b : Nat) (rest : Bytes) (h : b < 128) :
    utf8Step (b :: rest) = some (Char.ofNat b, rest) := by
  simp only [utf8Step.eq_def]
  rw [if_pos h]

theorem utf8DecodeAux_ascii (l : List Char) : ∀ fuel : Nat, (∀ c ∈ l, c.toNat < 128) →
    l.length ≤ fuel → utf8DecodeAux fuel (l.map Char.toNat) = some l := by
  induction l with
  | nil => intro fuel _ _; cases fuel <;> rfl
  | cons c t ih =>
    intro fuel h hle
    match fuel, hle with
    | f + 1, hle2 =>
      rw [List.map_cons, utf8DecodeAux, utf8Step_ascii _ _ (h c (by simp))]
      show Option.map (fun cs => Char.ofNat c.toNat :: cs) (utf8DecodeAux f (t.map Char.toNat))
        = some (c :: t)
      rw [ih f (fun c hc => h c (by simp [hc])) (by simpa using hle2)]
      simp only [Option.map_some', Char.ofNat_toNat]

theorem utf8DecodeChars_ascii (l : List Char) (h : ∀ c ∈ l, c.toNat < 128) :
    utf8DecodeChars (l.map Char.toNat) = some l := by
  rw [utf8DecodeChars]
  exact utf8DecodeAux_ascii l _ h (by simp)

/-! ## Transport encoding -/

theorem stripTrailingEq_append (cs p : List Char) (hcs : ∀ c ∈ cs, c ≠ '=')
    (hp : ∀ c ∈ p, c = '=') : stripTrailingEq (cs ++ p) = cs := by
  unfold stripTrailingEq
  rw [List.reverse_append]
  have h1 : ∀ q : List Char, (∀ c ∈ q, c = '=') →
      List.dropWhile (fun c => c = '=') (q ++ cs.reverse) =
        List.dropWhile (fun c => c = '=') cs.reverse := by
    intro q hq
    induction q with
    | nil => simp
    | cons a t ih =>
      have ha : a = '=' := hq a (by simp)
      rw [List.cons_append, List.dropWhile_cons]
      simp only [ha, decide_True, if_true]
      exact ih (fun c hc => hq c (by simp [hc]))
  rw [h1 p.reverse (fun c hc => hp c (List.mem_reverse.1 hc))]
  have h2 : List.dropWhile (fun c => c = '=') cs.reverse = cs.reverse := by
    cases hr : cs.reverse with
    | nil => rfl
    | cons a t =>
      have ha : a ≠ '=' := hcs a (by rw [← List.mem_reverse, hr]; simp)
      rw [List.dropWhile_cons]
      simp [ha]
  rw [h2, List.reverse_reverse]

theorem toUrlChar_b64_ne_eq (n : Nat) (hn : n < 64) : toUrlChar (b64CharOf n) ≠ '=' := by
  intro h
  have h2 := (b64CharOf_props n hn).2.2.2.1
  rw [h] at h2
  have h3 : toStdChar '=' = '=' := rfl
  rw [h3] at h2
  exact (b64CharOf_props n hn).2.2.1 h2.symm

theorem encodeTransport_chars (jsonStr : String) :
    (encodeTransport jsonStr).data = (b64Chars (utf8Encode jsonStr)).map toUrlChar := by
  unfold encodeTransport
  simp only [data_mk, List.map_append]
  have hpad : (b64PadChars (utf8Encode jsonStr)).map toUrlChar
      = b64PadChars (utf8Encode jsonStr) := by
    unfold b64PadChars
    split
    · rfl
    · split <;> rfl
  rw [hpad]
  apply stripTrailingEq_append
  · intro c hc
    rw [List.mem_map] at hc
    obtain ⟨c0, hc0, rfl⟩ := hc
    obtain ⟨n, hn, rfl⟩ := mem_b64Chars _ (utf8Encode_lt jsonStr) c0 hc0
    exact toUrlChar_b64_ne_eq n hn
  · exact mem_b64PadChars _

theorem map_toStd_toUrl (cs : List Char) (h : ∀ c ∈ cs, ∃ n, n < 64 ∧ c = b64CharOf n) :
    (cs.map toUrlChar).map toStdChar = cs := by
  rw [List.map_map]
  conv_rhs => rw [← List.map_id cs]
  apply List.map_congr_left
  intro c hc
  obtain ⟨n, hn, rfl⟩ := h c hc
  exact (b64CharOf_props n hn).2.2.2.1

/-- The decoder's transport reversal inverts the encoder's transport
encoding on every ASCII JSON string. -/
theorem transportDecode_encodeTransport (jsonStr : String)
    (hascii : ∀ c ∈ jsonStr.data, c.toNat < 128) :
    transportDecode (encodeTransport jsonStr) = some jsonStr := by
  unfold transportDecode
  rw [encodeTransport_chars]
  have hblt := utf8Encode_lt jsonStr
  rw [map_toStd_toUrl _ (mem_b64Chars _ hblt)]
  have hmod := (b64Chars_lengths (utf8Encode jsonStr)).2.1
  rw [addPadChars]
  have hforg := forgivingB64_encode (utf8Encode jsonStr)
    (List.replicate ((4 - (b64Chars (utf8Encode jsonStr)).length % 4) % 4) '=') hblt
    (fun c hc => List.eq_of_mem_replicate hc)
    (by rw [List.length_replicate]; omega)
    (by rw [List.length_replicate]; omega)
  rw [hforg]
  have hdec : utf8DecodeChars (utf8Encode jsonStr) = some jsonStr.data := by
    rw [utf8Encode, utf8Encode_ascii_chars jsonStr.data hascii]
    exact utf8DecodeChars_ascii jsonStr.data hascii
  show (match utf8DecodeChars (utf8Encode jsonStr) with
    | none => none
    | some cs => some (String.mk cs)) = some jsonStr
  rw [hdec]

/-! ## Hex round trip -/

theorem hexDigit_props : ∀ n : Nat, n < 16 →
    hexDigitVal (hexDigitChar n) = some n ∧
    plainChar (hexDigitChar n) = true ∧
    (hexDigitChar n).toNat < 128 ∧
    isJsonWs (hexDigitChar n) = false := by
  decide

theorem hexParseChars_toHex (bs : Bytes) (hb : ∀ b ∈ bs, b < 256) :
    hexParseChars (bs.map byteHexChars).flatten = bs := by
  induction bs with
  | nil => rfl
  | cons b t ih =>
    have hblt := hb b (by simp)
    have h1 := (hexDigit_props (b / 16) (by omega)).1
    have h2 := (hexDigit_props (b % 16) (by omega)).1
    rw [List.map_cons, List.flatten_cons]
    show hexParseChars (hexDigitChar (b / 16) :: hexDigitChar (b % 16)
      :: (t.map byteHexChars).flatten) = b :: t
    rw [hexParseChars, h1, h2, ih (fun x hx => hb x (by simp [hx]))]
    simp only [Option.getD_some, List.cons.injEq, and_true]
    omega

/-- `Hex.parse` inverts hex `toString` on every byte string. -/
theorem hexParse_toHex (bs : Bytes) (hb : ∀ b ∈ bs, b < 256) :
    hexParseString (toHexString bs) = bs := by
  rw [hexParseString, toHexString, data_mk]
  exact hexParseChars_toHex bs hb

theorem toHexString_length (bs : Bytes) : (toHexString bs).length = 2 * bs.length := by
  rw [toHexString, length_mk]
  induction bs with
  | nil => rfl
  | cons b t ih =>
    rw [List.map_cons, List.flatten_cons]
    show ([hexDigitChar (b / 16), hexDigitChar (b % 16)] ++ (t.map byteHexChars).flatten).length
      = 2 * (b :: t).length
    rw [List.length_append, ih]
    simp
    omega

theorem toHexString_inj (a b : Bytes) (ha : ∀ x ∈ a, x < 256) (hb : ∀ x ∈ b, x < 256)
    (h : toHexString a = toHexString b) : a = b := by
  rw [← hexParse_toHex a ha, ← hexParse_toHex b hb, h]

/-! ## Decimal digits -/

theorem digitChar_props : ∀ d : Nat, d < 10 →
    isDigitChar (Char.ofNat (48 + d)) = true ∧
    (Char.ofNat (48 + d)).toNat = 48 + d ∧
    plainChar (Char.ofNat (48 + d)) = true ∧
    isJsonWs (Char.ofNat (48 + d)) = false := by
  decide

theorem natDigitsAux_eq : ∀ fuel n : Nat, n < fuel → natDigitsAux fuel n = natDigits n := by
  intro fuel
  induction fuel using Nat.strong_induction_on with
  | _ fuel ih =>
    intro n hn
    match fuel, hn with
    | f + 1, hn =>
      by_cases h10 : n < 10
      · rw [natDigitsAux, if_pos h10, natDigits, natDigitsAux, if_pos h10]
      · rw [natDigitsAux, if_neg h10, natDigits, natDigitsAux, if_neg h10]
        have hd : n / 10 < n := Nat.div_lt_self (by omega) (by omega)
        rw [ih f (by omega) (n / 10) (by omega), ih n (by omega) (n / 10) hd]

theorem natDigits_lt10 (n : Nat) (h : n < 10) : natDigits n = [n] := by
  rw [natDigits, natDigitsAux, if_pos h]

theorem natDigits_ge10 (n : Nat) (h : 10 ≤ n) : natDigits n = natDigits (n / 10) ++ [n % 10] := by
  rw [natDigits, natDigitsAux, if_neg (by omega)]
  rw [natDigitsAux_eq n (n / 10) (Nat.div_lt_self (by omega) (by omega))]

theorem natDigits_lt (n : Nat) : ∀ d ∈ natDigits n, d < 10 := by
  induction n using Nat.strong_induction_on with
  | _ n ih =>
    by_cases h10 : n < 10
    · rw [natDigits_lt10 n h10]
      intro d hd
      simp at hd
      omega
    · rw [natDigits_ge10 n (by omega)]
      intro d hd
      rcases List.mem_append.1 hd with h | h
      · exact ih (n / 10) (Nat.div_lt_self (by omega) (by omega)) d h
      · simp at h
        omega

theorem natDigits_ne_nil (n : Nat) : natDigits n ≠ [] := by
  by_cases h10 : n < 10
  · rw [natDigits_lt10 n h10]; simp
  · rw [natDigits_ge10 n (by omega)]; simp

theorem natDigits_head_pos (n : Nat) (hn : 1 ≤ n) :
    ∀ d t, natDigits n = d :: t → 1 ≤ d := by
  induction n using Nat.strong_induction_on with
  | _ n ih =>
    intro d t hdt
    by_cases h10 : n < 10
    · rw [natDigits_lt10 n h10] at hdt
      simp at hdt
      omega
    · rw [natDigits_ge10 n (by omega)] at hdt
      obtain ⟨d0, t0, h0⟩ : ∃ d0 t0, natDigits (n / 10) = d0 :: t0 := by
        cases hnd : natDigits (n / 10) with
        | nil => exact absurd hnd (natDigits_ne_nil _)
        | cons a b => exact ⟨a, b, rfl⟩
      rw [h0] at hdt
      simp at hdt
      have h1 := ih (n / 10) (Nat.div_lt_self (by omega) (by omega)) (by omega) d0 t0 h0
      have h2 := hdt.1
      omega

theorem natDigitChars_ge10 (n : Nat) (h : 10 ≤ n) :
    natDigitChars n = natDigitChars (n / 10) ++ [Char.ofNat (48 + n % 10)] := by
  rw [natDigitChars, natDigits_ge10 n h, List.map_append, natDigitChars]
  rfl

theorem pDigits_natDigitChars (n : Nat) : ∀ rest acc,
    pDigits (natDigitChars n ++ rest) acc =
      pDigits rest (acc * 10 ^ (natDigits n).length + n) := by
  induction n using Nat.strong_induction_on with
  | _ n ih =>
    intro rest acc
    by_cases h10 : n < 10
    · rw [natDigitChars, natDigits_lt10 n h10]
      have hp := digitChar_props n h10
      show pDigits (Char.ofNat (48 + n) :: rest) acc = _
      rw [pDigits, if_pos hp.1, hp.2.1]
      congr 1
      simp [natDigits_lt10 n h10]
    · rw [natDigitChars_ge10 n (by omega), List.append_assoc, List.singleton_append,
        ih (n / 10) (Nat.div_lt_self (by omega) (by omega))]
      have hp := digitChar_props (n % 10) (by omega)
      rw [pDigits, if_pos hp.1, hp.2.1]
      have hlen : (natDigits n).length = (natDigits (n / 10)).length + 1 := by
        rw [natDigits_ge10 n (by omega)]
        simp
      rw [hlen]
      congr 1
      have harith : (acc * 10 ^ (natDigits (n / 10)).length + n / 10) * 10 + (48 + n % 10 - 48)
          = acc * (10 ^ (natDigits (n / 10)).length * 10) + (n / 10 * 10 + n % 10) := by
        have : 48 + n % 10 - 48 = n % 10 := by omega
        rw [this]
        ring
      rw [harith, ← pow_succ]
      omega

theorem pDigits_stop (c0 : Char) (t : List Char) (acc : Nat) (hc0 : isDigitChar c0 = false) :
    pDigits (c0 :: t) acc = (acc, c0 :: t) := by
  rw [pDigits, if_neg (by rw [hc0]; simp)]

theorem natDigitChars_shape (n : Nat) :
    ∃ d t, natDigits n = d :: t ∧ d < 10 ∧
      natDigitChars n = Char.ofNat (48 + d) :: t.map (fun d => Char.ofNat (48 + d)) := by
  cases hnd : natDigits n with
  | nil => exact absurd hnd (natDigits_ne_nil _)
  | cons d t =>
    refine ⟨d, t, rfl, natDigits_lt n d (by rw [hnd]; simp), ?_⟩
    rw [natDigitChars, hnd, List.map_cons]

theorem pNumber_natDigitChars (n : Nat) (c0 : Char) (t : List Char)
    (hc0 : isDigitChar c0 = false) :
    pNumber (natDigitChars n ++ c0 :: t) = some (Json.num (n : Int), c0 :: t) := by
  by_cases hz : n = 0
  · subst hz
    have h0chars : natDigitChars 0 = ['0'] := rfl
    rw [h0chars, List.singleton_append]
    simp [pNumber, pNumAux.eq_def, hc0]
  · obtain ⟨d, t0, hnd, hd10, hshape⟩ := natDigitChars_shape n
    have hdp := digitChar_props d hd10
    rw [hshape, List.cons_append, pNumber]
    have hnotminus : Char.ofNat (48 + d) ≠ '-' := by
      intro heq
      have h1 := congrArg Char.toNat heq
      rw [hdp.2.1] at h1
      have h45 : ('-').toNat = 45 := rfl
      omega
    rw [if_neg hnotminus]
    have hd1 : 1 ≤ d := natDigits_head_pos n (by omega) d t0 hnd
    have hnot0 : ¬(Char.ofNat (48 + d) = '0') := by
      intro heq
      have h1 := congrArg Char.toNat heq
      rw [hdp.2.1] at h1
      have h48 : ('0').toNat = 48 := rfl
      omega
    simp only [pNumAux.eq_def]
    rw [if_neg hnot0, if_pos hdp.1]
    have hrw : Char.ofNat (48 + d) :: (t0.map (fun d => Char.ofNat (48 + d)) ++ c0 :: t)
        = natDigitChars n ++ c0 :: t := by
      rw [hshape]
      simp
    rw [hrw, pDigits_natDigitChars n (c0 :: t) 0, pDigits_stop c0 t _ hc0]
    simp

/-! ## JSON string literals and whitespace -/

theorem plainChar_spec (c : Char) (h : plainChar c = true) :
    32 ≤ c.toNat ∧ c.toNat < 128 ∧ c ≠ '"' ∧ c ≠ '\\' := by
  simp only [plainChar, Bool.and_eq_true, decide_eq_true_eq, Bool.not_eq_true',
    beq_eq_false_iff_ne, ne_eq] at h
  exact ⟨h.1.1.1, h.1.1.2, h.1.2, h.2⟩

theorem escapeChar_plain (c : Char) (h : plainChar c = true) : escapeChar c = [c] := by
  obtain ⟨h32, h128, hq, hb⟩ := plainChar_spec c h
  have hn : ∀ m : Nat, m < 32 → ¬(c.toNat = m) := by omega
  unfold escapeChar
  rw [if_neg hq, if_neg hb, if_neg (hn 8 (by omega)), if_neg (hn 9 (by omega)),
    if_neg (hn 10 (by omega)), if_neg (hn 12 (by omega)), if_neg (hn 13 (by omega)),
    if_neg (by omega)]

theorem flatten_map_singleton (l : List Char) (f : Char → List Char)
    (h : ∀ c ∈ l, f c = [c]) : (l.map f).flatten = l := by
  induction l with
  | nil => rfl
  | cons c t ih =>
    rw [List.map_cons, List.flatten_cons, h c (by simp), ih (fun c hc => h c (by simp [hc]))]
    rfl

theorem jsonQuote_plain (s : String) (h : ∀ c ∈ s.data, plainChar c) :
    jsonQuote s = '"' :: s.data ++ ['"'] := by
  rw [jsonQuote, flatten_map_singleton _ _ (fun c hc => escapeChar_plain c (h c hc))]

theorem pStrTok_quote (rest : List Char) : pStrTok ('"' :: rest) = some (none, rest) := rfl

theorem pStrTok_plain (c : Char) (rest : List Char) (h32 : 32 ≤ c.toNat) (hq : c ≠ '"')
    (hb : c ≠ '\\') : pStrTok (c :: rest) = some (some c, rest) := by
  simp only [pStrTok.eq_def]
  rw [if_neg hq, if_neg hb, if_neg (by omega)]

theorem pStrAux_plain (cs : List Char) : ∀ fuel : Nat, ∀ rest : List Char,
    (∀ c ∈ cs, plainChar c) → cs.length < fuel →
    pStrAux fuel (cs ++ '"' :: rest) = some (cs, rest) := by
  induction cs with
  | nil =>
    intro fuel rest h hf
    match fuel, hf with
    | f + 1, _ =>
      rw [List.nil_append, pStrAux, pStrTok_quote]
  | cons c t ih =>
    intro fuel rest h hf
    match fuel, hf with
    | f + 1, hf2 =>
      obtain ⟨h32, h128, hq, hb⟩ := plainChar_spec c (h c (by simp))
      rw [List.cons_append, pStrAux, pStrTok_plain c _ h32 hq hb]
      show (pStrAux f (t ++ '"' :: rest)).map (fun p => (c :: p.1, p.2)) = some (c :: t, rest)
      rw [ih f rest (fun c hc => h c (by simp [hc])) (by simp at hf2 ⊢; omega)]
      rfl

theorem pStrChars_plain (cs : List Char) (h : ∀ c ∈ cs, plainChar c) (rest : List Char) :
    pStrChars (cs ++ '"' :: rest) = some (cs, rest) := by
  rw [pStrChars]
  exact pStrAux_plain cs _ rest h (by simp)

theorem skipWs_cons (c : Char) (t : List Char) (h : isJsonWs c = false) :
    skipWs (c :: t) = c :: t := by
  simp [skipWs, List.dropWhile_cons, h]

theorem char_ne_of_toNat (c d : Char) (h : c.toNat ≠ d.toNat) : ¬(c = d) :=
  fun heq => h (congrArg Char.toNat heq)

theorem digit_not_special (c : Char) (h : isDigitChar c = true) :
    ¬(c = 'n') ∧ ¬(c = 't') ∧ ¬(c = 'f') ∧ ¬(c = '"') ∧ ¬(c = '[') ∧ ¬(c = '\x7b')
      ∧ ¬(c = '-') ∧ isJsonWs c = false := by
  have hb : 48 ≤ c.toNat ∧ c.toNat ≤ 57 := by simpa [isDigitChar] using h
  refine ⟨char_ne_of_toNat c 'n' (by rw [show ('n').toNat = 110 from rfl]; omega),
    char_ne_of_toNat c 't' (by rw [show ('t').toNat = 116 from rfl]; omega),
    char_ne_of_toNat c 'f' (by rw [show ('f').toNat = 102 from rfl]; omega),
    char_ne_of_toNat c '"' (by rw [show ('"').toNat = 34 from rfl]; omega),
    char_ne_of_toNat c '[' (by rw [show ('[').toNat = 91 from rfl]; omega),
    char_ne_of_toNat c '\x7b' (by rw [show ('\x7b').toNat = 123 from rfl]; omega),
    char_ne_of_toNat c '-' (by rw [show ('-').toNat = 45 from rfl]; omega), ?_⟩
  simp only [isJsonWs, Bool.or_eq_false_iff, decide_eq_false_iff_not]
  exact ⟨⟨⟨char_ne_of_toNat c ' ' (by rw [show (' ').toNat = 32 from rfl]; omega),
    char_ne_of_toNat c '\t' (by rw [show ('\t').toNat = 9 from rfl]; omega)⟩,
    char_ne_of_toNat c '\n' (by rw [show ('\n').toNat = 10 from rfl]; omega)⟩,
    char_ne_of_toNat c '\r' (by rw [show ('\r').toNat = 13 from rfl]; omega)⟩

theorem pValue_strVal (f : Nat) (v : String) (tail : List Char)
    (hv : ∀ c ∈ v.data, plainChar c) :
    pValue (f + 1) ('"' :: (v.data ++ '"' :: tail)) = some (.str v, tail) := by
  rw [pValue, skipWs_cons _ _ (by decide)]
  simp only [pStrChars_plain v.data hv tail]
  rw [if_neg (by decide), if_neg (by decide), if_neg (by decide), if_pos trivial]
  rfl

theorem pMembers_strMember (f : Nat) (kc : Char) (v : String) (rest2 : List Char)
    (hkc : plainChar kc = true) (hkcw : isJsonWs kc = false)
    (hv : ∀ c ∈ v.data, plainChar c) :
    pMembers (f + 2) ('"' :: kc :: '"' :: ':' :: ('"' :: (v.data ++ '"' :: rest2))) =
      (match skipWs rest2 with
      | [] => none
      | c3 :: r4 =>
        if c3 = ',' then (pMembers (f + 1) r4).map
            (fun p => ((String.mk [kc], Json.str v) :: p.1, p.2))
        else if c3 = '\x7d' then some ([(String.mk [kc], Json.str v)], r4)
        else none) := by
  rw [pMembers, skipWs_cons _ _ (by decide), ]
  have hkey : pStrChars (kc :: '"' :: ':' :: ('"' :: (v.data ++ '"' :: rest2)))
      = some ([kc], ':' :: ('"' :: (v.data ++ '"' :: rest2))) :=
    pStrChars_plain [kc] (by intro c hc; simp at hc; rw [hc]; exact hkc) _
  simp only [hkey]
  rw [if_pos trivial]
  rw [skipWs_cons ':' _ (by decide)]
  simp only [pValue_strVal f v rest2 hv]
  rw [if_pos trivial]

theorem pValue_numVal (f : Nat) (n : Nat) (c0 : Char) (t : List Char)
    (hc0 : isDigitChar c0 = false) :
    pValue (f + 1) (natDigitChars n ++ c0 :: t) = some (.num n, c0 :: t) := by
  obtain ⟨d, t0, hnd, hd10, hshape⟩ := natDigitChars_shape n
  have hdp := digitChar_props d hd10
  have hns := digit_not_special _ hdp.1
  rw [hshape, List.cons_append, pValue, skipWs_cons _ _ hns.2.2.2.2.2.2.2]
  simp only [hns.1, hns.2.1, hns.2.2.1, hns.2.2.2.1, hns.2.2.2.2.1, hns.2.2.2.2.2.1, if_false]
  have hrw : Char.ofNat (48 + d) :: (t0.map (fun d => Char.ofNat (48 + d)) ++ c0 :: t)
      = natDigitChars n ++ c0 :: t := by rw [hshape]; simp
  rw [hrw, pNumber_natDigitChars n c0 t hc0]

theorem pMembers_numMember (f : Nat) (kc : Char) (n : Nat) (c0 : Char) (t : List Char)
    (hkc : plainChar kc = true)
    (hc0 : isDigitChar c0 = false) :
    pMembers (f + 2) ('"' :: kc :: '"' :: ':' :: (natDigitChars n ++ c0 :: t)) =
      (match skipWs (c0 :: t) with
      | [] => none
      | c3 :: r4 =>
        if c3 = ',' then (pMembers (f + 1) r4).map
            (fun p => ((String.mk [kc], Json.num n) :: p.1, p.2))
        else if c3 = '\x7d' then some ([(String.mk [kc], Json.num n)], r4)
        else none) := by
  rw [pMembers, skipWs_cons _ _ (by decide)]
  have hkey : pStrChars (kc :: '"' :: ':' :: (natDigitChars n ++ c0 :: t))
      = some ([kc], ':' :: (natDigitChars n ++ c0 :: t)) :=
    pStrChars_plain [kc] (by intro c hc; simp at hc; rw [hc]; exact hkc) _
  simp only [hkey]
  rw [if_pos trivial]
  rw [skipWs_cons ':' _ (by decide)]
  simp only [pValue_numVal f n c0 t hc0]
  rw [if_pos trivial]

theorem pValue_objStart (f : Nat) (c2 : Char) (r2 : List Char) (h2 : isJsonWs c2 = false)
    (hne : c2 ≠ '\x7d') :
    pValue (f + 1) ('\x7b' :: c2 :: r2) =
      (pMembers f (c2 :: r2)).map (fun p => (Json.obj p.1, p.2)) := by
  rw [pValue, skipWs_cons '\x7b' _ (by decide)]
  simp only [show (('\x7b' : Char) = 'n') = False by simp, show (('\x7b' : Char) = 't') = False by simp,
    show (('\x7b' : Char) = 'f') = False by simp, show (('\x7b' : Char) = '"') = False by simp,
    show (('\x7b' : Char) = '[') = False by simp, if_false]
  have hne' : (c2 = '\x7d') = False := by simp [hne]
  rw [if_pos trivial, skipWs_cons c2 r2 h2]
  simp only [hne', if_false]

theorem pValue_envelope (a : Nat) (k i d : String) (s : Nat)
    (hk : ∀ c ∈ k.data, plainChar c) (hi : ∀ c ∈ i.data, plainChar c)
    (hd : ∀ c ∈ d.data, plainChar c) :
    pValue (a + 6) (envelopeJsonChars k i d s) = some (envJson k i d (s : Int), []) := by
  have hq : ∀ (K T : List Char), ('"' :: (K ++ ['"'])) ++ T = '"' :: (K ++ '"' :: T) := by
    intro K T; simp
  rw [envelopeJsonChars, jsonQuote_plain k hk, jsonQuote_plain i hi, jsonQuote_plain d hd]
  simp only [List.append_assoc, List.cons_append, List.singleton_append, List.nil_append]
  have e4 : pMembers (a + 1 + 1)
      ('"' :: 's' :: '"' :: ':' :: (natDigitChars s ++ ['\x7d'])) =
      some ([("s", Json.num (s : Int))], []) := by
    rw [pMembers_numMember a 's' s '\x7d' [] (by decide) (by decide)]
    rfl
  have e3 : pMembers (a + 2 + 1)
      ('"' :: 'd' :: '"' :: ':' :: '"' :: (d.data ++ '"' ::
        (',' :: '"' :: 's' :: '"' :: ':' :: (natDigitChars s ++ ['\x7d'])))) =
      some ([("d", Json.str d), ("s", Json.num (s : Int))], []) := by
    rw [pMembers_strMember (a + 1) 'd' d _ (by decide) (by decide) hd]
    rw [skipWs_cons ',' _ (by decide)]
    simp only [e4, Option.map_some']
    rw [if_pos trivial]
  have e2 : pMembers (a + 3 + 1)
      ('"' :: 'i' :: '"' :: ':' :: '"' :: (i.data ++ '"' ::
        (',' :: '"' :: 'd' :: '"' :: ':' :: '"' :: (d.data ++ '"' ::
          (',' :: '"' :: 's' :: '"' :: ':' :: (natDigitChars s ++ ['\x7d'])))))) =
      some ([("i", Json.str i), ("d", Json.str d), ("s", Json.num (s : Int))], []) := by
    rw [pMembers_strMember (a + 2) 'i' i _ (by decide) (by decide) hi]
    rw [skipWs_cons ',' _ (by decide)]
    simp only [e3, Option.map_some']
    rw [if_pos trivial]
  have e1 : pMembers (a + 5)
      ('"' :: 'k' :: '"' :: ':' :: '"' :: (k.data ++ '"' ::
        (',' :: '"' :: 'i' :: '"' :: ':' :: '"' :: (i.data ++ '"' ::
          (',' :: '"' :: 'd' :: '"' :: ':' :: '"' :: (d.data ++ '"' ::
            (',' :: '"' :: 's' :: '"' :: ':' :: (natDigitChars s ++ ['\x7d'])))))))) =
      some ([("k", Json.str k), ("i", Json.str i), ("d", Json.str d),
        ("s", Json.num (s : Int))], []) := by
    rw [pMembers_strMember (a + 3) 'k' k _ (by decide) (by decide) hk]
    rw [skipWs_cons ',' _ (by decide)]
    simp only [e2, Option.map_some']
    rw [if_pos trivial]
  rw [pValue_objStart (a + 5) '"' _ (by decide) (by decide), e1, Option.map_some']
  rfl

/-! ## Parsing the whole envelope -/

theorem envelopeJsonChars_length (k i d : String) (s : Nat) :
    5 ≤ (envelopeJsonChars k i d s).length := by
  rw [envelopeJsonChars]
  simp

theorem jsonParse_envelope (k i d : String) (s : Nat)
    (hk : ∀ c ∈ k.data, plainChar c) (hi : ∀ c ∈ i.data, plainChar c)
    (hd : ∀ c ∈ d.data, plainChar c) :
    jsonParse (envelopeJsonString k i d s) = some (envJson k i d (s : Int)) := by
  rw [jsonParse, envelopeJsonString, data_mk, length_mk]
  have hlen := envelopeJsonChars_length k i d s
  have hfe : (envelopeJsonChars k i d s).length + 1
      = ((envelopeJsonChars k i d s).length - 5) + 6 := by omega
  rw [hfe, pValue_envelope _ k i d s hk hi hd]
  rfl

theorem envelopeJsonChars_ascii (k i d : String) (s : Nat)
    (hk : ∀ c ∈ k.data, plainChar c) (hi : ∀ c ∈ i.data, plainChar c)
    (hd : ∀ c ∈ d.data, plainChar c) :
    ∀ c ∈ (envelopeJsonString k i d s).data, c.toNat < 128 := by
  have hquote : ∀ (v : String), (∀ x ∈ v.data, plainChar x) →
      ∀ x ∈ jsonQuote v, x.toNat < 128 := by
    intro v hv x hx
    rw [jsonQuote_plain v hv] at hx
    simp only [List.cons_append, List.mem_cons, List.mem_append, List.mem_singleton,
      List.not_mem_nil, or_false] at hx
    rcases hx with rfl | hx | rfl
    · decide
    · exact (plainChar_spec _ (hv x hx)).2.1
    · decide
  have hdig : ∀ x ∈ natDigitChars s, x.toNat < 128 := by
    intro x hx
    rw [natDigitChars] at hx
    simp only [List.mem_map] at hx
    obtain ⟨d', hd', rfl⟩ := hx
    have hlt := natDigits_lt s d' hd'
    rw [(digitChar_props d' hlt).2.1]
    omega
  intro c hc
  rw [envelopeJsonString, data_mk, envelopeJsonChars] at hc
  simp only [List.mem_cons, List.mem_append, List.mem_singleton, List.not_mem_nil,
    or_false] at hc
  rcases hc with rfl | rfl | rfl | rfl | rfl | hc1
  · decide
  · decide
  · decide
  · decide
  · decide
  rcases hc1 with hc1 | rfl | rfl | rfl | rfl | rfl | hc2
  · exact hquote k hk c hc1
  · decide
  · decide
  · decide
  · decide
  · decide
  rcases hc2 with hc2 | rfl | rfl | rfl | rfl | rfl | hc3
  · exact hquote i hi c hc2
  · decide
  · decide
  · decide
  · decide
  · decide
  rcases hc3 with hc3 | rfl | rfl | rfl | rfl | rfl | hc4
  · exact hquote d hd c hc3
  · decide
  · decide
  · decide
  · decide
  · decide
  rcases hc4 with hc4 | rfl
  · exact hdig c hc4
  · decide

theorem utf8CharBytes_ne_nil (c : Char) : utf8CharBytes c ≠ [] := by
  simp only [utf8CharBytes]
  split
  · simp
  · split
    · simp
    · split <;> simp

theorem encodeTransport_ne_empty (jsonStr : String) (h : jsonStr.data ≠ []) :
    encodeTransport jsonStr ≠ "" := by
  intro heq
  have hdata := congrArg String.data heq
  rw [encodeTransport_chars] at hdata
  have : b64Chars (utf8Encode jsonStr) = [] := by
    have := congrArg List.length hdata
    simp at this
    exact this
  have hjb : utf8Encode jsonStr ≠ [] := by
    rw [utf8Encode]
    cases hcd : jsonStr.data with
    | nil => exact absurd hcd h
    | cons c t =>
      simp only [List.map_cons, List.flatten_cons]
      intro hx
      exact utf8CharBytes_ne_nil c (by
        rcases List.append_eq_nil.1 hx with ⟨h1, -⟩
        exact h1)
  cases hjb2 : utf8Encode jsonStr with
  | nil => exact hjb hjb2
  | cons b t =>
    rw [hjb2] at this
    cases t with
    | nil => simp [b64Chars, sextetsOf] at this
    | cons b2 t2 =>
      cases t2 with
      | nil => simp [b64Chars, sextetsOf] at this
      | cons b3 t3 => simp [b64Chars, sextetsOf] at this

theorem getF_envJson (k i d : String) (s : Int) :
    getF (envJson k i d s) "k" = some (.str k) ∧
    getF (envJson k i d s) "i" = some (.str i) ∧
    getF (envJson k i d s) "d" = some (.str d) ∧
    getF (envJson k i d s) "s" = some (.num s) :=
  ⟨rfl, rfl, rfl, rfl⟩

/-- The validation pipeline of `decryptFile`, applied to the encoder's own
output: every stage before the field-presence check succeeds, and the
result is decided by the truthiness of the four fields. -/
theorem decryptFileValidate_encode (k i d : String) (s : Nat)
    (hk : ∀ c ∈ k.data, plainChar c) (hi : ∀ c ∈ i.data, plainChar c)
    (hd : ∀ c ∈ d.data, plainChar c) :
    decryptFileValidate (encodeTransport (envelopeJsonString k i d s)) =
      if jsFalsy (some (.str k)) || jsFalsy (some (.str i)) || jsFalsy (some (.str d))
          || jsFalsy (some (.num (s : Int))) then .error .incompleteEnvelope
      else .ok (envJson k i d (s : Int)) := by
  have hne : encodeTransport (envelopeJsonString k i d s) ≠ "" := by
    apply encodeTransport_ne_empty
    rw [envelopeJsonString, data_mk, envelopeJsonChars]
    simp
  rw [decryptFileValidate, if_neg hne,
    transportDecode_encodeTransport _ (envelopeJsonChars_ascii k i d s hk hi hd)]
  show validateJson (envelopeJsonString k i d s) = _
  rw [validateJson, jsonParse_envelope k i d s hk hi hd]
  show validateFields (envJson k i d (s : Int)) = _
  show (if (jsFalsy (getF (envJson k i d (s : Int)) "k")
        || jsFalsy (getF (envJson k i d (s : Int)) "i")
        || jsFalsy (getF (envJson k i d (s : Int)) "d")
        || jsFalsy (getF (envJson k i d (s : Int)) "s")) = true then
      Except.error JsError.incompleteEnvelope
    else Except.ok (envJson k i d (s : Int))) = _
  obtain ⟨g1, g2, g3, g4⟩ := getF_envJson k i d (s : Int)
  rw [g1, g2, g3, g4]

/-! ## CBC mode round trip -/

theorem chunks16Aux_eq : ∀ fuel bs, bs.length ≤ fuel →
    chunks16Aux fuel bs = chunks16Aux bs.length bs := by
  intro fuel
  induction fuel using Nat.strong_induction_on with
  | _ fuel ih =>
    intro bs hle
    match fuel, hle with
    | 0, hle =>
      have : bs.length = 0 := by omega
      rw [this]
    | f + 1, hle =>
      by_cases h16 : bs.length < 16
      · rw [chunks16Aux, if_pos h16]
        match hL : bs.length, h16 with
        | 0, _ => rfl
        | m + 1, h16 => rw [chunks16Aux, if_pos (by omega)]
      · rw [chunks16Aux, if_neg h16]
        match hL : bs.length, h16 with
        | m + 1, h16 =>
          rw [chunks16Aux, if_neg (by omega)]
          have hdl : (bs.drop 16).length = m + 1 - 16 := by
            rw [List.length_drop, hL]
          rw [ih f (by omega) (bs.drop 16) (by omega),
            ih m (by omega) (bs.drop 16) (by omega)]

theorem chunks16_unfold (bs : Bytes) :
    chunks16 bs = if bs.length < 16 then [] else bs.take 16 :: chunks16 (bs.drop 16) := by
  rw [chunks16]
  by_cases h16 : bs.length < 16
  · rw [if_pos h16]
    match hL : bs.length, h16 with
    | 0, _ => rfl
    | m + 1, h16 => rw [chunks16Aux, if_pos (by omega)]
  · rw [if_neg h16]
    match hL : bs.length, h16 with
    | m + 1, h16 =>
      rw [chunks16Aux, if_neg (by omega), chunks16]
      rw [chunks16Aux_eq m (bs.drop 16) (by rw [List.length_drop]; omega)]

theorem chunks16_of_block (block rest : Bytes) (hb : block.length = 16) :
    chunks16 (block ++ rest) = block :: chunks16 rest := by
  rw [chunks16_unfold, if_neg (by rw [List.length_append, hb]; omega)]
  congr 1
  · rw [← hb, List.take_left]
  · rw [show (16 : Nat) = block.length from hb.symm, List.drop_left]

theorem chunks16_props : ∀ n : Nat, ∀ bs : Bytes, bs.length = n → 16 ∣ n →
    (∀ x ∈ bs, x < 256) →
    (∀ b ∈ chunks16 bs, b.length = 16 ∧ ∀ x ∈ b, x < 256) ∧ (chunks16 bs).flatten = bs := by
  intro n
  induction n using Nat.strong_induction_on with
  | _ n ih =>
    intro bs hlen hdvd hb
    by_cases h0 : n = 0
    · subst h0
      have : bs = [] := List.length_eq_zero.1 hlen
      subst this
      exact ⟨fun b hb => by simp [chunks16, chunks16Aux] at hb, rfl⟩
    · have h16 : 16 ≤ n := by
        rcases hdvd with ⟨c, rfl⟩
        rcases Nat.eq_zero_or_pos c with rfl | hc
        · omega
        · calc 16 = 16 * 1 := by omega
            _ ≤ 16 * c := by omega
      have hsplit : bs = bs.take 16 ++ bs.drop 16 := (List.take_append_drop 16 bs).symm
      have htl : (bs.take 16).length = 16 := by
        rw [List.length_take]
        omega
      have hdl : (bs.drop 16).length = n - 16 := by
        rw [List.length_drop, hlen]
      have hrec := ih (n - 16) (by omega) (bs.drop 16) hdl
        (by rcases hdvd with ⟨c, rfl⟩; exact ⟨c - 1, by omega⟩)
        (fun x hx => hb x (List.mem_of_mem_drop hx))
      have hch : chunks16 bs = bs.take 16 :: chunks16 (bs.drop 16) := by
        rw [chunks16_unfold, if_neg (by omega)]
      constructor
      · intro b hbm
        rw [hch] at hbm
        rcases List.mem_cons.1 hbm with rfl | hbm
        · exact ⟨htl, fun x hx => hb x (List.mem_of_mem_take hx)⟩
        · exact hrec.1 b hbm
      · rw [hch, List.flatten_cons, hrec.2]
        exact (List.take_append_drop 16 bs)

theorem xorBytes_length (a b : Bytes) : (xorBytes a b).length = min a.length b.length :=
  List.length_zipWith _ a b

theorem xorBytes_lt (a : Bytes) (ha : ∀ x ∈ a, x < 256) : ∀ b : Bytes,
    (∀ x ∈ b, x < 256) → ∀ x ∈ xorBytes a b, x < 256 := by
  induction a with
  | nil => intro b _ x hx; cases b <;> simp [xorBytes] at hx
  | cons p t ih =>
    intro b hb x hx
    cases b with
    | nil => simp [xorBytes] at hx
    | cons q u =>
      rw [show xorBytes (p :: t) (q :: u) = (p ^^^ q) :: xorBytes t u from rfl] at hx
      rcases List.mem_cons.1 hx with rfl | hx
      · exact Nat.xor_lt_two_pow (n := 8) (ha p (by simp)) (hb q (by simp))
      · exact ih (fun y hy => ha y (by simp [hy])) u (fun y hy => hb y (by simp [hy])) x hx

theorem xorBytes_cancel (a b : Bytes) (h : a.length = b.length) :
    xorBytes (xorBytes a b) b = a := by
  induction a generalizing b with
  | nil => cases b <;> rfl
  | cons x t ih =>
    cases b with
    | nil => simp at h
    | cons y u =>
      show (x ^^^ y ^^^ y) :: xorBytes (xorBytes t u) u = x :: t
      rw [Nat.xor_cancel_right, ih u (by simpa using h)]

theorem cbc_blocks_roundtrip (C : BlockCipher) (key : Bytes) (hC : GoodCipherKey C key) :
    ∀ blocks : List Bytes, ∀ prev : Bytes,
      (∀ b ∈ blocks, b.length = 16 ∧ ∀ x ∈ b, x < 256) →
      prev.length = 16 → (∀ x ∈ prev, x < 256) →
      cbcDecBlocks C key prev (cbcEncBlocks C key prev blocks) = blocks := by
  intro blocks
  induction blocks with
  | nil => intro prev _ _ _; rfl
  | cons b rest ih =>
    intro prev hbl hp16 hpb
    obtain ⟨hb16, hbb⟩ := hbl b (by simp)
    have hx16 : (xorBytes b prev).length = 16 := by
      rw [xorBytes_length, hb16, hp16]
      simp
    have hxb := xorBytes_lt b hbb prev hpb
    obtain ⟨hdec, hel, heb⟩ := hC (xorBytes b prev) hx16 hxb
    rw [cbcEncBlocks, cbcDecBlocks]
    show xorBytes (C.dec key (C.enc key (xorBytes b prev))) prev
        :: cbcDecBlocks C key (C.enc key (xorBytes b prev))
          (cbcEncBlocks C key (C.enc key (xorBytes b prev)) rest)
      = b :: rest
    rw [hdec, xorBytes_cancel b prev (by omega),
      ih (C.enc key (xorBytes b prev)) (fun x hx => hbl x (by simp [hx])) hel heb]

theorem cbcEncBlocks_props (C : BlockCipher) (key : Bytes) (hC : GoodCipherKey C key) :
    ∀ blocks : List Bytes, ∀ prev : Bytes,
      (∀ b ∈ blocks, b.length = 16 ∧ ∀ x ∈ b, x < 256) →
      prev.length = 16 → (∀ x ∈ prev, x < 256) →
      ∀ c ∈ cbcEncBlocks C key prev blocks, c.length = 16 ∧ ∀ x ∈ c, x < 256 := by
  intro blocks
  induction blocks with
  | nil => intro prev _ _ _ c hc; simp [cbcEncBlocks] at hc
  | cons b rest ih =>
    intro prev hbl hp16 hpb c hc
    obtain ⟨hb16, hbb⟩ := hbl b (by simp)
    have hx16 : (xorBytes b prev).length = 16 := by
      rw [xorBytes_length, hb16, hp16]
      simp
    have hxb := xorBytes_lt b hbb prev hpb
    obtain ⟨-, hel, heb⟩ := hC (xorBytes b prev) hx16 hxb
    rw [cbcEncBlocks] at hc
    rcases List.mem_cons.1 hc with rfl | hc
    · exact ⟨hel, heb⟩
    · exact ih (C.enc key (xorBytes b prev)) (fun x hx => hbl x (by simp [hx])) hel heb c hc

theorem flatten_blocks_chunks16 : ∀ blocks : List Bytes,
    (∀ b ∈ blocks, b.length = 16) → chunks16 blocks.flatten = blocks := by
  intro blocks
  induction blocks with
  | nil => intro _; rfl
  | cons b rest ih =>
    intro h
    rw [List.flatten_cons, chunks16_of_block b rest.flatten (h b (by simp)),
      ih (fun x hx => h x (by simp [hx]))]

/-- CBC decryption inverts CBC encryption on block-aligned data. -/
theorem cbcDecrypt_cbcEncrypt (C : BlockCipher) (key iv data : Bytes)
    (hC : GoodCipherKey C key) (hiv16 : iv.length = 16) (hivb : ∀ x ∈ iv, x < 256)
    (hdvd : 16 ∣ data.length) (hdb : ∀ x ∈ data, x < 256) :
    cbcDecrypt C key iv (cbcEncrypt C key iv data) = data := by
  obtain ⟨hblocks, hflat⟩ := chunks16_props data.length data rfl hdvd hdb
  rw [cbcEncrypt, cbcDecrypt,
    flatten_blocks_chunks16 _ (fun b hb =>
      (cbcEncBlocks_props C key hC (chunks16 data) iv hblocks hiv16 hivb b hb).1),
    cbc_blocks_roundtrip C key hC (chunks16 data) iv hblocks hiv16 hivb, hflat]

/-! ## PKCS#7 padding -/

theorem pkcs7Pad_dvd (bs : Bytes) : 16 ∣ (pkcs7Pad bs).length := by
  rw [pkcs7Pad, List.length_append, List.length_replicate]
  omega

theorem pkcs7Pad_lt (bs : Bytes) (hb : ∀ x ∈ bs, x < 256) :
    ∀ x ∈ pkcs7Pad bs, x < 256 := by
  intro x hx
  rw [pkcs7Pad] at hx
  rcases List.mem_append.1 hx with h | h
  · exact hb x h
  · have := List.eq_of_mem_replicate h
    omega

theorem pkcs7Pad_take (bs : Bytes) : (pkcs7Pad bs).take bs.length = bs := by
  rw [pkcs7Pad, List.take_left]

theorem pkcs7Pad_length (bs : Bytes) :
    (pkcs7Pad bs).length = bs.length + (16 - bs.length % 16) := by
  rw [pkcs7Pad, List.length_append, List.length_replicate]

/-! ## Word packing and the byte-copy loop -/

theorem wordBytes_pack (b1 b2 b3 b4 : Nat) (h1 : b1 < 256) (h2 : b2 < 256) (h3 : b3 < 256)
    (h4 : b4 < 256) :
    wordBytes (b1 * 16777216 + b2 * 65536 + b3 * 256 + b4) = [b1, b2, b3, b4] := by
  have hw1 : b1 * 16777216 + b2 * 65536 + b3 * 256 + b4
      = b1 * 16777216 + (b2 * 65536 + b3 * 256 + b4) := by ring
  have hw2 : b1 * 16777216 + b2 * 65536 + b3 * 256 + b4
      = (b1 * 256 + b2) * 65536 + (b3 * 256 + b4) := by ring
  have hw3 : b1 * 16777216 + b2 * 65536 + b3 * 256 + b4
      = (b1 * 65536 + b2 * 256 + b3) * 256 + b4 := by ring
  have e1 := split_div_mod b1 (b2 * 65536 + b3 * 256 + b4) 16777216 (by omega) (by omega)
  have e2 := split_div_mod (b1 * 256 + b2) (b3 * 256 + b4) 65536 (by omega) (by omega)
  have e3 := split_div_mod (b1 * 65536 + b2 * 256 + b3) b4 256 (by omega) (by omega)
  rw [wordBytes]
  congr 1
  · rw [hw1, e1.1, Nat.mod_eq_of_lt h1]
  congr 1
  · rw [hw2, e2.1, (split_div_mod b1 b2 256 (by omega) h2).2]
  congr 1
  · rw [hw3, e3.1]
    have hr : b1 * 65536 + b2 * 256 + b3 = (b1 * 256 + b2) * 256 + b3 := by ring
    rw [hr, (split_div_mod (b1 * 256 + b2) b3 256 (by omega) h3).2]
  congr 1
  rw [hw3, e3.2]

theorem flatten_wordBytes (bs : Bytes) (hb : ∀ x ∈ bs, x < 256) (h4 : bs.length % 4 = 0) :
    ((wordsOfBytes bs).map wordBytes).flatten = bs := by
  induction bs using wordsOfBytes.induct with
  | case1 b1 b2 b3 b4 rest ih =>
    have hb1 := hb b1 (by simp)
    have hb2 := hb b2 (by simp)
    have hb3 := hb b3 (by simp)
    have hb4 := hb b4 (by simp)
    rw [wordsOfBytes, List.map_cons, List.flatten_cons,
      wordBytes_pack b1 b2 b3 b4 hb1 hb2 hb3 hb4,
      ih (fun x hx => hb x (by simp [hx])) (by simp at h4 ⊢; omega)]
    rfl
  | case2 b1 b2 b3 => simp at h4
  | case3 b1 b2 => simp at h4
  | case4 b1 => simp at h4
  | case5 => rfl

theorem copyLoop_nil_succ (m : Nat) : copyLoop [] (m + 1) = List.replicate (m + 1) 0 := rfl

theorem copyLoop_cons_succ (w : Nat) (t : List Nat) (m : Nat) :
    copyLoop (w :: t) (m + 1) = (wordBytes w).take (m + 1) ++ copyLoop t (m + 1 - 4) := rfl

theorem copyLoop_length : ∀ ws : List Nat, ∀ s : Nat, (copyLoop ws s).length = s := by
  intro ws
  induction ws with
  | nil =>
    intro s
    cases s with
    | zero => rfl
    | succ m => rw [copyLoop_nil_succ]; simp
  | cons w t ih =>
    intro s
    cases s with
    | zero => rfl
    | succ m =>
      rw [copyLoop_cons_succ, List.length_append, ih, List.length_take]
      show min (m + 1) (wordBytes w).length + (m + 1 - 4) = m + 1
      rw [show (wordBytes w).length = 4 from rfl]
      omega

theorem copyLoop_take : ∀ ws : List Nat, ∀ s : Nat, s ≤ 4 * ws.length →
    copyLoop ws s = ((ws.map wordBytes).flatten).take s := by
  intro ws
  induction ws with
  | nil =>
    intro s hs
    have : s = 0 := by simp at hs; omega
    subst this
    rfl
  | cons w t ih =>
    intro s hs
    cases s with
    | zero => rfl
    | succ m =>
      rw [copyLoop_cons_succ, List.map_cons, List.flatten_cons, List.take_append_eq_append_take,
        show (wordBytes w).length = 4 from rfl,
        ih (m + 1 - 4) (by simp at hs ⊢; omega)]

theorem copyLoop_over : ∀ ws : List Nat, ∀ s : Nat, 4 * ws.length ≤ s →
    copyLoop ws s = (ws.map wordBytes).flatten ++ List.replicate (s - 4 * ws.length) 0 := by
  intro ws
  induction ws with
  | nil =>
    intro s hs
    cases s with
    | zero => rfl
    | succ m => rw [copyLoop_nil_succ]; simp
  | cons w t ih =>
    intro s hs
    have h4 : 4 ≤ s := by simp at hs; omega
    cases s with
    | zero => omega
    | succ m =>
      rw [copyLoop_cons_succ, List.map_cons, List.flatten_cons,
        List.take_of_length_le (by rw [show (wordBytes w).length = 4 from rfl]; omega),
        ih (m + 1 - 4) (by simp at hs ⊢; omega), List.append_assoc]
      congr 2
      simp
      omega

theorem length_flatten_wordBytes (ws : List Nat) :
    ((ws.map wordBytes).flatten).length = 4 * ws.length := by
  induction ws with
  | nil => rfl
  | cons w t ih =>
    rw [List.map_cons, List.flatten_cons, List.length_append, ih,
      show (wordBytes w).length = 4 from rfl, List.length_cons]
    omega

/-! ## The decoder applied to the encoder's output -/

theorem toHexString_plain (bs : Bytes) (hb : ∀ x ∈ bs, x < 256) :
    ∀ c ∈ (toHexString bs).data, plainChar c := by
  intro c hc
  rw [toHexString, data_mk, List.mem_flatten] at hc
  obtain ⟨l, hl, hcl⟩ := hc
  rw [List.mem_map] at hl
  obtain ⟨b, hbm, rfl⟩ := hl
  have hblt := hb b hbm
  rw [byteHexChars] at hcl
  rcases List.mem_cons.1 hcl with rfl | hcl
  · exact (hexDigit_props (b / 16) (by omega)).2.1
  · rcases List.mem_cons.1 hcl with rfl | hcl
    · exact (hexDigit_props (b % 16) (by omega)).2.1
    · simp at hcl

theorem stdB64String_plain (bs : Bytes) (hb : ∀ x ∈ bs, x < 256) :
    ∀ c ∈ (stdB64String bs).data, plainChar c := by
  intro c hc
  rw [stdB64String, data_mk] at hc
  rcases List.mem_append.1 hc with h | h
  · obtain ⟨n, hn, rfl⟩ := mem_b64Chars bs hb c h
    exact (b64CharOf_props n hn).2.2.2.2.1
  · rw [mem_b64PadChars bs c h]
    decide

theorem toHexString_ne_empty (bs : Bytes) (h : bs ≠ []) : toHexString bs ≠ "" := by
  intro heq
  have hlen := congrArg String.length heq
  rw [toHexString_length] at hlen
  have : bs.length ≠ 0 := fun h0 => h (List.length_eq_zero.1 h0)
  have : String.length "" = 0 := rfl
  omega

theorem b64Chars_ne_nil (bs : Bytes) (h : bs ≠ []) : b64Chars bs ≠ [] := by
  match bs, h with
  | b1 :: t, _ =>
    match t with
    | [] => simp [b64Chars, sextetsOf]
    | b2 :: t2 =>
      match t2 with
      | [] => simp [b64Chars, sextetsOf]
      | b3 :: t3 => simp [b64Chars, sextetsOf]

theorem stdB64String_ne_empty (bs : Bytes) (h : bs ≠ []) : stdB64String bs ≠ "" := by
  intro heq
  have hdata := congrArg String.data heq
  rw [stdB64String, data_mk] at hdata
  rcases List.append_eq_nil.1 hdata with ⟨h1, -⟩
  exact b64Chars_ne_nil bs h h1

theorem decryptedWords_envJson (C : BlockCipher) (k i d : String) (s : Int) :
    decryptedWords C (envJson k i d s)
      = wordsOfBytes (cbcDecrypt C (hexParseString k) (hexParseString i)
          ((forgivingB64 d).getD [])) := rfl

theorem two_pow_53_int : (2 : Int) ^ 53 = 9007199254740992 := by norm_num

theorem two_pow_53_nat : (2 : Nat) ^ 53 = 9007199254740992 := by norm_num

theorem decryptProcess_envJson (C : BlockCipher) (k i d : String) (s : Nat)
    (h53 : s < 2 ^ 53) :
    decryptProcess C (envJson k i d (s : Int))
      = .ok (copyLoop (decryptedWords C (envJson k i d (s : Int))) s) := by
  rw [two_pow_53_nat] at h53
  rw [decryptProcess,
    show asInt (getF (envJson k i d (s : Int)) "s") = (s : Int) from rfl,
    if_neg (by rw [two_pow_53_int]; omega)]
  congr 1

theorem length_flatten_16 (blocks : List Bytes) (h : ∀ b ∈ blocks, b.length = 16) :
    blocks.flatten.length = 16 * blocks.length := by
  induction blocks with
  | nil => rfl
  | cons b t ih =>
    rw [List.flatten_cons, List.length_append, h b (by simp),
      ih (fun x hx => h x (by simp [hx])), List.length_cons]
    omega

/-- The ciphertext produced by the encoder: block-aligned bytes `< 256`,
and nonempty. -/
theorem cbcEncrypt_pad_props (C : BlockCipher) (key iv payload : Bytes)
    (hC : GoodCipherKey C key) (hiv16 : iv.length = 16) (hivb : ∀ x ∈ iv, x < 256)
    (hp : ∀ x ∈ payload, x < 256) :
    (∀ x ∈ cbcEncrypt C key iv (pkcs7Pad payload), x < 256)
      ∧ 16 ∣ (cbcEncrypt C key iv (pkcs7Pad payload)).length
      ∧ cbcEncrypt C key iv (pkcs7Pad payload) ≠ [] := by
  obtain ⟨hblocks, hflat⟩ := chunks16_props (pkcs7Pad payload).length _ rfl
    (pkcs7Pad_dvd payload) (pkcs7Pad_lt payload hp)
  have hencprops := cbcEncBlocks_props C key hC (chunks16 (pkcs7Pad payload)) iv hblocks
    hiv16 hivb
  have hlenct : (cbcEncrypt C key iv (pkcs7Pad payload)).length
      = 16 * (cbcEncBlocks C key iv (chunks16 (pkcs7Pad payload))).length := by
    rw [cbcEncrypt]
    exact length_flatten_16 _ (fun b hb => (hencprops b hb).1)
  have hch : chunks16 (pkcs7Pad payload)
      = (pkcs7Pad payload).take 16 :: chunks16 ((pkcs7Pad payload).drop 16) := by
    rw [chunks16_unfold, if_neg (by rw [pkcs7Pad_length]; omega)]
  refine ⟨?_, ⟨_, hlenct⟩, ?_⟩
  · intro x hx
    rw [cbcEncrypt, List.mem_flatten] at hx
    obtain ⟨l, hl, hxl⟩ := hx
    exact (hencprops l hl).2 x hxl
  · intro hempty
    have hlen0 := congrArg List.length hempty
    rw [hlenct] at hlen0
    rw [hch, cbcEncBlocks] at hlen0
    simp at hlen0

/-- The validation pipeline accepts the encoder's output for every nonempty
payload, recovering exactly the envelope object the encoder serialized. -/
theorem decryptFileValidate_encrypt (C : BlockCipher) (key iv payload : Bytes)
    (hC : GoodCipherKey C key)
    (hk32 : key.length = 32) (hkb : ∀ x ∈ key, x < 256)
    (hiv16 : iv.length = 16) (hivb : ∀ x ∈ iv, x < 256)
    (hp : ∀ x ∈ payload, x < 256) (hp1 : 1 ≤ payload.length) :
    decryptFileValidate (encryptFileCore C key iv payload)
      = .ok (envJson (toHexString key) (toHexString iv)
          (stdB64String (cbcEncrypt C key iv (pkcs7Pad payload)))
          (payload.length : Int)) := by
  obtain ⟨hctb, hctdvd, hctne⟩ := cbcEncrypt_pad_props C key iv payload hC hiv16 hivb hp
  have hstep := decryptFileValidate_encode (toHexString key) (toHexString iv)
    (stdB64String (cbcEncrypt C key iv (pkcs7Pad payload))) payload.length
    (toHexString_plain key hkb) (toHexString_plain iv hivb)
    (stdB64String_plain _ hctb)
  rw [show encryptFileCore C key iv payload
      = encodeTransport (envelopeJsonString (toHexString key) (toHexString iv)
          (stdB64String (cbcEncrypt C key iv (pkcs7Pad payload))) payload.length) from rfl]
  rw [hstep, if_neg ?notfalsy]
  case notfalsy =>
    intro hor
    have hkne : key ≠ [] := by
      intro h
      rw [h] at hk32
      simp at hk32
    have hivne : iv ≠ [] := by
      intro h
      rw [h] at hiv16
      simp at hiv16
    simp only [jsFalsy, Bool.or_eq_true, beq_iff_eq] at hor
    rcases hor with ((h | h) | h) | h
    · exact toHexString_ne_empty key hkne h
    · exact toHexString_ne_empty iv hivne h
    · exact stdB64String_ne_empty _ hctne h
    · omega

/-- Decoding the encoder's output delivers exactly the original payload,
for every nonempty payload within the encoder's size bound and any key/IV
of the proper lengths. -/
theorem decryptFile_encryptFileCore (C : BlockCipher) (key iv payload : Bytes)
    (hC : GoodCipherKey C key)
    (hk32 : key.length = 32) (hkb : ∀ x ∈ key, x < 256)
    (hiv16 : iv.length = 16) (hivb : ∀ x ∈ iv, x < 256)
    (hp : ∀ x ∈ payload, x < 256) (hp1 : 1 ≤ payload.length)
    (hple : payload.length ≤ MAX_FILE_SIZE) :
    decryptFile C (encryptFileCore C key iv payload) = .ok payload := by
  obtain ⟨hctb, hctdvd, hctne⟩ := cbcEncrypt_pad_props C key iv payload hC hiv16 hivb hp
  have h53 : payload.length < 2 ^ 53 := by
    rw [two_pow_53_nat]
    have hM : MAX_FILE_SIZE = 10485760 := rfl
    omega
  rw [decryptFile, decryptFileCore,
    decryptFileValidate_encrypt C key iv payload hC hk32 hkb hiv16 hivb hp hp1]
  show (match decryptProcess C (envJson (toHexString key) (toHexString iv)
      (stdB64String (cbcEncrypt C key iv (pkcs7Pad payload))) (payload.length : Int)) with
    | Except.error e => Except.error ("Failed to decrypt file: " ++ e.message)
    | Except.ok bs => Except.ok bs) = Except.ok payload
  rw [decryptProcess_envJson C (toHexString key) (toHexString iv)
      (stdB64String (cbcEncrypt C key iv (pkcs7Pad payload))) payload.length h53,
    decryptedWords_envJson,
    hexParse_toHex key hkb, hexParse_toHex iv hivb, forgivingB64_stdB64 _ hctb]
  show Except.ok (copyLoop (wordsOfBytes (cbcDecrypt C key iv
    (cbcEncrypt C key iv (pkcs7Pad payload)))) payload.length) = Except.ok payload
  rw [cbcDecrypt_cbcEncrypt C key iv (pkcs7Pad payload) hC hiv16 hivb
    (pkcs7Pad_dvd payload) (pkcs7Pad_lt payload hp)]
  have h4 : (pkcs7Pad payload).length % 4 = 0 := by
    rcases pkcs7Pad_dvd payload with ⟨c, hc⟩
    omega
  have hflat := flatten_wordBytes (pkcs7Pad payload) (pkcs7Pad_lt payload hp) h4
  have hle : payload.length ≤ 4 * (wordsOfBytes (pkcs7Pad payload)).length := by
    have := length_flatten_wordBytes (wordsOfBytes (pkcs7Pad payload))
    rw [hflat] at this
    rw [← this, pkcs7Pad_length]
    omega
  rw [copyLoop_take _ _ hle, hflat, pkcs7Pad_take]

/-! ## Stage-by-stage characterization of the validation pipeline -/

theorem validate_of_transport_none (data : String) (h0 : ¬(data = ""))
    (htd : transportDecode data = none) :
    decryptFileValidate data = .error .malformedTransport := by
  rw [decryptFileValidate, if_neg h0, htd]

theorem validate_of_transport_some (data : String) (h0 : ¬(data = "")) (j : String)
    (htd : transportDecode data = some j) :
    decryptFileValidate data = validateJson j := by
  rw [decryptFileValidate, if_neg h0, htd]

theorem validateJson_of_none (j : String) (hjp : jsonParse j = none) :
    validateJson j = .error .invalidStructure := by
  rw [validateJson, hjp]

theorem validateJson_of_some (j : String) (v : Json) (hjp : jsonParse j = some v) :
    validateJson j = validateFields v := by
  rw [validateJson, hjp]

theorem validateFields_null : validateFields .null = .error .nullAccess := rfl

theorem validateFields_nonnull (v : Json) (hv : v ≠ .null) :
    validateFields v =
      if (jsFalsy (getF v "k") || jsFalsy (getF v "i") || jsFalsy (getF v "d")
          || jsFalsy (getF v "s")) = true then .error .incompleteEnvelope
      else .ok v := by
  cases v with
  | null => exact absurd rfl hv
  | bool b => rfl
  | num n => rfl
  | str s => rfl
  | arr xs => rfl
  | obj kvs => rfl

theorem validate_emptyInput_iff (data : String) :
    decryptFileValidate data = .error .emptyInput ↔ data = "" := by
  constructor
  · intro h
    by_contra h0
    rcases htd : transportDecode data with _ | j
    · rw [validate_of_transport_none data h0 htd] at h
      simp at h
    · rw [validate_of_transport_some data h0 j htd] at h
      rcases hjp : jsonParse j with _ | v
      · rw [validateJson_of_none j hjp] at h
        simp at h
      · rw [validateJson_of_some j v hjp] at h
        by_cases hv : v = Json.null
        · subst hv
          rw [validateFields_null] at h
          simp at h
        · rw [validateFields_nonnull v hv] at h
          split at h <;> simp at h
  · intro h
    subst h
    rfl

theorem validate_malformed_iff (data : String) :
    decryptFileValidate data = .error .malformedTransport
      ↔ data ≠ "" ∧ transportDecode data = none := by
  constructor
  · intro h
    by_cases h0 : data = ""
    · subst h0
      simp [decryptFileValidate] at h
    · refine ⟨h0, ?_⟩
      rcases htd : transportDecode data with _ | j
      · rfl
      · rw [validate_of_transport_some data h0 j htd] at h
        rcases hjp : jsonParse j with _ | v
        · rw [validateJson_of_none j hjp] at h
          simp at h
        · rw [validateJson_of_some j v hjp] at h
          by_cases hv : v = Json.null
          · subst hv
            rw [validateFields_null] at h
            simp at h
          · rw [validateFields_nonnull v hv] at h
            split at h <;> simp at h
  · rintro ⟨h0, htd⟩
    exact validate_of_transport_none data h0 htd

theorem validate_invalidStructure_iff (data : String) :
    decryptFileValidate data = .error .invalidStructure
      ↔ data ≠ "" ∧ ∃ j, transportDecode data = some j ∧ jsonParse j = none := by
  constructor
  · intro h
    by_cases h0 : data = ""
    · subst h0
      simp [decryptFileValidate] at h
    · refine ⟨h0, ?_⟩
      rcases htd : transportDecode data with _ | j
      · rw [validate_of_transport_none data h0 htd] at h
        simp at h
      · refine ⟨j, rfl, ?_⟩
        rw [validate_of_transport_some data h0 j htd] at h
        rcases hjp : jsonParse j with _ | v
        · rfl
        · rw [validateJson_of_some j v hjp] at h
          by_cases hv : v = Json.null
          · subst hv
            rw [validateFields_null] at h
            simp at h
          · rw [validateFields_nonnull v hv] at h
            split at h <;> simp at h
  · rintro ⟨h0, j, htd, hjp⟩
    rw [validate_of_transport_some data h0 j htd]
    exact validateJson_of_none j hjp

theorem validate_incomplete_iff (data : String) :
    decryptFileValidate data = .error .incompleteEnvelope
      ↔ data ≠ "" ∧ ∃ j v, transportDecode data = some j ∧ jsonParse j = some v
          ∧ v ≠ Json.null
          ∧ (jsFalsy (getF v "k") || jsFalsy (getF v "i") || jsFalsy (getF v "d")
              || jsFalsy (getF v "s")) = true := by
  constructor
  · intro h
    by_cases h0 : data = ""
    · subst h0
      simp [decryptFileValidate] at h
    · refine ⟨h0, ?_⟩
      rcases htd : transportDecode data with _ | j
      · rw [validate_of_transport_none data h0 htd] at h
        simp at h
      · refine ⟨j, ?_⟩
        rw [validate_of_transport_some data h0 j htd] at h
        rcases hjp : jsonParse j with _ | v
        · rw [validateJson_of_none j hjp] at h
          simp at h
        · refine ⟨v, rfl, rfl, ?_, ?_⟩
          · intro hv
            subst hv
            rw [validateJson_of_some j Json.null hjp, validateFields_null] at h
            simp at h
          · rw [validateJson_of_some j v hjp] at h
            by_cases hv : v = Json.null
            · subst hv
              rw [validateFields_null] at h
              simp at h
            · rw [validateFields_nonnull v hv] at h
              by_contra hfa
              rw [if_neg hfa] at h
              simp at h
  · rintro ⟨h0, j, v, htd, hjp, hv, hf⟩
    rw [validate_of_transport_some data h0 j htd, validateJson_of_some j v hjp,
      validateFields_nonnull v hv, if_pos hf]

/-! ## Remaining helpers for the claim theorems -/

theorem idCipher_good (key : Bytes) : GoodCipherKey idCipher key :=
  fun b hl hb => ⟨rfl, hl, hb⟩

theorem encryptFileR_split (C : BlockCipher) (payload key iv r : Bytes)
    (hk32 : key.length = 32) (hiv16 : iv.length = 16)
    (hle : payload.length ≤ MAX_FILE_SIZE) :
    encryptFileR C payload (key ++ (iv ++ r))
      = (.ok (encryptFileCore C key iv payload), r) := by
  rw [encryptFileR, if_neg (by omega)]
  have h1 : (key ++ (iv ++ r)).take 32 = key := by
    rw [← hk32]
    exact List.take_left key (iv ++ r)
  have h2 : (key ++ (iv ++ r)).drop 32 = iv ++ r := by
    rw [← hk32]
    exact List.drop_left key (iv ++ r)
  have h3 : (iv ++ r).take 16 = iv := by
    rw [← hiv16]
    exact List.take_left iv r
  have h4 : (iv ++ r).drop 16 = r := by
    rw [← hiv16]
    exact List.drop_left iv r
  rw [h1, h2]
  show (Except.ok (encryptFileCore C key ((iv ++ r).take 16) payload), (iv ++ r).drop 16) = _
  rw [h3, h4]

theorem encodeTransport_eq_spec (jsonStr : String) :
    encodeTransport jsonStr = specBase64UrlNoPad (utf8Encode jsonStr) := by
  apply String.ext
  rw [encodeTransport_chars]
  show _ = (sextetsOf (utf8Encode jsonStr)).map b64UrlCharOf
  rw [b64Chars, List.map_map]
  apply List.map_congr_left
  intro n hn
  have hlt := sextetsOf_lt (utf8Encode jsonStr) (utf8Encode_lt jsonStr) n hn
  exact ((b64CharOf_props n hlt).2.2.2.2.2.2.2).symm

theorem envJson_inj (k i d k2 i2 d2 : String) (s s2 : Int)
    (h : envJson k i d s = envJson k2 i2 d2 s2) : k = k2 ∧ i = i2 ∧ d = d2 ∧ s = s2 := by
  simp only [envJson, Json.obj.injEq, List.cons.injEq, Prod.mk.injEq, Json.str.injEq,
    Json.num.injEq, and_true, true_and] at h
  exact ⟨h.1, h.2.1, h.2.2.1, h.2.2.2⟩

set_option maxRecDepth 10000

/-! ## The claims -/

/-- C1: the round-trip claim, amended. For every payload of 1 to 10485760
bytes and every fresh key/IV the encoder draws from its randomness supply,
the encoder succeeds and decoding its envelope delivers exactly the
original bytes. (The claim's `len(b) = 0` case is false on the code: see
the counterexample, where the envelope of the empty payload is rejected as
`Incomplete file data` because `s = 0` is falsy.) -/
theorem c1_round_trip (C : BlockCipher) (key iv payload r : Bytes)
    (hC : GoodCipherKey C key)
    (hk32 : key.length = 32) (hkb : ∀ x ∈ key, x < 256)
    (hiv16 : iv.length = 16) (hivb : ∀ x ∈ iv, x < 256)
    (hp : ∀ x ∈ payload, x < 256)
    (hp1 : 1 ≤ payload.length) (hple : payload.length ≤ MAX_FILE_SIZE) :
    (encryptFileR C payload (key ++ (iv ++ r))).1 = .ok (encryptFileCore C key iv payload)
    ∧ decryptFile C (encryptFileCore C key iv payload) = .ok payload := by
  constructor
  · rw [encryptFileR_split C payload key iv r hk32 hiv16 hple]
  · exact decryptFile_encryptFileCore C key iv payload hC hk32 hkb hiv16 hivb hp hp1 hple

theorem c1_round_trip_witness :
    GoodCipherKey idCipher (List.replicate 32 0)
    ∧ (List.replicate 32 0 : Bytes).length = 32 ∧ (∀ x ∈ (List.replicate 32 0 : Bytes), x < 256)
    ∧ (List.replicate 16 0 : Bytes).length = 16 ∧ (∀ x ∈ (List.replicate 16 0 : Bytes), x < 256)
    ∧ (∀ x ∈ ([1, 2, 3, 4, 5] : Bytes), x < 256)
    ∧ 1 ≤ ([1, 2, 3, 4, 5] : Bytes).length ∧ ([1, 2, 3, 4, 5] : Bytes).length ≤ MAX_FILE_SIZE
    ∧ ((encryptFileR idCipher [1, 2, 3, 4, 5]
          (List.replicate 32 0 ++ (List.replicate 16 0 ++ []))).1
        = .ok (encryptFileCore idCipher (List.replicate 32 0) (List.replicate 16 0)
            [1, 2, 3, 4, 5])
      ∧ decryptFile idCipher (encryptFileCore idCipher (List.replicate 32 0)
          (List.replicate 16 0) [1, 2, 3, 4, 5]) = .ok [1, 2, 3, 4, 5]) :=
  ⟨idCipher_good _, by decide, by decide, by decide, by decide, by decide, by decide,
    by decide,
    c1_round_trip idCipher (List.replicate 32 0) (List.replicate 16 0) [1, 2, 3, 4, 5] []
      (idCipher_good _) (by decide) (by decide) (by decide) (by decide) (by decide)
      (by decide) (by decide)⟩

/-- C1, counterexample to the claim as stated: the empty payload is inside
the claimed size range and encodes successfully, but decoding its envelope
fails with `Incomplete file data` (the `s = 0` field is falsy), so
`decode(encode([])) ≠ []`. -/
theorem c1_counterexample :
    ([] : Bytes).length ≤ MAX_FILE_SIZE
    ∧ (encryptFileR idCipher [] (List.replicate 48 7)).1
        = .ok (encryptFileCore idCipher (List.replicate 32 7) (List.replicate 16 7) [])
    ∧ decryptFile idCipher
        (encryptFileCore idCipher (List.replicate 32 7) (List.replicate 16 7) [])
        = .error "Failed to decrypt file: Incomplete file data" := by
  refine ⟨by decide, ?_, ?_⟩
  · rfl
  · rfl

/-- C2: an envelope whose four fields are all present but whose
`plaintextLength` field `s` is exactly 0 parses to the full four-field
object, yet the decoder rejects it as `Incomplete file data`, because the
falsy check treats `s = 0` as missing. -/
theorem c2_zero_rejected (k i d : String)
    (hk : ∀ c ∈ k.data, plainChar c) (hi : ∀ c ∈ i.data, plainChar c)
    (hd : ∀ c ∈ d.data, plainChar c) :
    jsonParse (envelopeJsonString k i d 0) = some (envJson k i d 0)
    ∧ getF (envJson k i d 0) "k" = some (.str k)
    ∧ getF (envJson k i d 0) "i" = some (.str i)
    ∧ getF (envJson k i d 0) "d" = some (.str d)
    ∧ getF (envJson k i d 0) "s" = some (.num 0)
    ∧ decryptFileValidate (encodeTransport (envelopeJsonString k i d 0))
        = .error .incompleteEnvelope := by
  refine ⟨jsonParse_envelope k i d 0 hk hi hd, rfl, rfl, rfl, rfl, ?_⟩
  rw [decryptFileValidate_encode k i d 0 hk hi hd]
  simp [jsFalsy]

theorem c2_zero_rejected_witness :
    (∀ c ∈ ("aa" : String).data, plainChar c)
    ∧ (jsonParse (envelopeJsonString "aa" "bb" "cc" 0) = some (envJson "aa" "bb" "cc" 0)
      ∧ getF (envJson "aa" "bb" "cc" 0) "k" = some (.str "aa")
      ∧ getF (envJson "aa" "bb" "cc" 0) "i" = some (.str "bb")
      ∧ getF (envJson "aa" "bb" "cc" 0) "d" = some (.str "cc")
      ∧ getF (envJson "aa" "bb" "cc" 0) "s" = some (.num 0)
      ∧ decryptFileValidate (encodeTransport (envelopeJsonString "aa" "bb" "cc" 0))
          = .error .incompleteEnvelope) :=
  ⟨by decide, c2_zero_rejected "aa" "bb" "cc" (by decide) (by decide) (by decide)⟩

/-- C3: `encryptFile` fails with the `PayloadTooLarge` message if and only
if the payload exceeds `MAX_FILE_SIZE = 10485760` bytes; at exactly
10485761 bytes it fails and at exactly 10485760 bytes it succeeds. -/
theorem c3_size_boundary :
    MAX_FILE_SIZE = 10485760
    ∧ (∀ (C : BlockCipher) (payload rand : Bytes),
        (encryptFileR C payload rand).1 = .error "File size exceeds 10MB limit"
          ↔ payload.length > 10485760)
    ∧ (∀ (C : BlockCipher) (rand : Bytes),
        (encryptFileR C (List.replicate 10485761 0) rand).1
          = .error "File size exceeds 10MB limit")
    ∧ (∀ (C : BlockCipher) (rand : Bytes),
        ∃ out, (encryptFileR C (List.replicate 10485760 0) rand).1 = .ok out) := by
  have hM : MAX_FILE_SIZE = 10485760 := rfl
  have hiff : ∀ (C : BlockCipher) (payload rand : Bytes),
      (encryptFileR C payload rand).1 = .error "File size exceeds 10MB limit"
        ↔ payload.length > 10485760 := by
    intro C payload rand
    rw [encryptFileR]
    by_cases h : payload.length > MAX_FILE_SIZE
    · rw [if_pos h]
      constructor
      · intro _
        omega
      · intro _
        rfl
    · rw [if_neg h]
      constructor
      · intro hx
        exact absurd hx (by simp)
      · intro hx
        omega
  refine ⟨rfl, hiff, ?_, ?_⟩
  · intro C rand
    rw [(hiff C _ rand)]
    rw [List.length_replicate]
    decide
  · intro C rand
    rw [encryptFileR, if_neg (by rw [List.length_replicate]; decide)]
    exact ⟨_, rfl⟩

/-- C4: on an oversized payload the size check fires first: the call
returns the `PayloadTooLarge` error with the randomness supply untouched
(no key or IV drawn), and the result does not depend on the block cipher
(no cryptographic operation contributes). -/
theorem c4_size_check_first (C : BlockCipher) (payload rand : Bytes)
    (h : payload.length > MAX_FILE_SIZE) :
    encryptFileR C payload rand = (.error "File size exceeds 10MB limit", rand)
    ∧ ∀ C' : BlockCipher, encryptFileR C' payload rand = encryptFileR C payload rand := by
  constructor
  · rw [encryptFileR, if_pos h]
  · intro C'
    rw [encryptFileR, if_pos h, encryptFileR, if_pos h]

/-- C5: the validation order, amended. The first three stages are as
claimed: `EmptyInput` exactly on the empty string, otherwise
`MalformedTransportEncoding` exactly when the transport reversal fails,
otherwise `InvalidStructure` exactly when the JSON parse fails, each stage
preempting the later ones; the spec examples `""`, `"not-base64!!"` and
`base64url(JSON(\x7bk:"x"\x7d))` produce the three claimed errors; and the
four error messages are pairwise distinct. The fourth stage holds only for
a parse result other than JSON `null`: a falsy field then yields
`IncompleteEnvelope` — but on input `"bnVsbA"` (JSON `null`) the field read
itself throws, giving a different error (see the counterexample). -/
theorem c5_validation_order (data : String) :
    (decryptFileValidate data = .error .emptyInput ↔ data = "")
    ∧ (decryptFileValidate data = .error .malformedTransport
        ↔ data ≠ "" ∧ transportDecode data = none)
    ∧ (decryptFileValidate data = .error .invalidStructure
        ↔ data ≠ "" ∧ ∃ j, transportDecode data = some j ∧ jsonParse j = none)
    ∧ (decryptFileValidate data = .error .incompleteEnvelope
        ↔ data ≠ "" ∧ ∃ j v, transportDecode data = some j ∧ jsonParse j = some v
            ∧ v ≠ Json.null
            ∧ (jsFalsy (getF v "k") || jsFalsy (getF v "i") || jsFalsy (getF v "d")
                || jsFalsy (getF v "s")) = true)
    ∧ List.Pairwise (fun a b => JsError.message a ≠ JsError.message b)
        [JsError.emptyInput, JsError.malformedTransport, JsError.invalidStructure,
          JsError.incompleteEnvelope]
    ∧ decryptFileValidate "" = .error .emptyInput
    ∧ decryptFileValidate "not-base64!!" = .error .malformedTransport
    ∧ decryptFileValidate "eyJrIjoieCJ9" = .error .incompleteEnvelope :=
  ⟨validate_emptyInput_iff data, validate_malformed_iff data,
    validate_invalidStructure_iff data, validate_incomplete_iff data,
    by decide, rfl, rfl, rfl⟩

/-- C5, counterexample to the fourth stage as claimed: `"bnVsbA"` is the
transport encoding of the JSON text `null`, which parses successfully, and
all four fields are then missing — yet the decoder does not produce
`IncompleteEnvelope`: reading a property of `null` throws a `TypeError`
before the truthiness check can fail. -/
theorem c5_counterexample :
    transportDecode "bnVsbA" = some "null"
    ∧ jsonParse "null" = some Json.null
    ∧ getF Json.null "k" = none
    ∧ jsFalsy (getF Json.null "k") = true
    ∧ decryptFileValidate "bnVsbA" = .error .nullAccess
    ∧ JsError.nullAccess ≠ JsError.incompleteEnvelope
    ∧ decryptFileValidate "bnVsbA" ≠ .error .incompleteEnvelope := by
  refine ⟨rfl, rfl, rfl, rfl, rfl, by decide, ?_⟩
  intro h
  rw [show decryptFileValidate "bnVsbA" = Except.error JsError.nullAccess from rfl] at h
  exact absurd (Except.error.inj h) (by decide)

/-- C6: the wire format. For a payload within the size bound and the fresh
32-byte key and 16-byte IV drawn from the randomness supply, the encoder's
output is exactly the spec's
`base64url_nopad(JSON(\x7bk: hex(key), i: hex(iv), d: cipher_text, s: len\x7d))`,
with the hex key 64 characters and the hex IV 32 characters long. -/
theorem c6_wire_format (C : BlockCipher) (key iv payload rand : Bytes)
    (hk32 : key.length = 32) (hiv16 : iv.length = 16)
    (hle : payload.length ≤ MAX_FILE_SIZE) :
    (encryptFileR C payload (key ++ (iv ++ rand))).1
      = .ok (specWireFormat key iv (cbcEncrypt C key iv (pkcs7Pad payload)) payload.length)
    ∧ specWireFormat key iv (cbcEncrypt C key iv (pkcs7Pad payload)) payload.length
      = specBase64UrlNoPad (utf8Encode (envelopeJsonString (toHexString key)
          (toHexString iv) (stdB64String (cbcEncrypt C key iv (pkcs7Pad payload)))
          payload.length))
    ∧ (toHexString key).length = 64 ∧ (toHexString iv).length = 32 := by
  refine ⟨?_, rfl, ?_, ?_⟩
  · rw [encryptFileR_split C payload key iv rand hk32 hiv16 hle]
    show Except.ok (encryptFileCore C key iv payload) = _
    rw [show encryptFileCore C key iv payload
        = encodeTransport (envelopeJsonString (toHexString key) (toHexString iv)
            (stdB64String (cbcEncrypt C key iv (pkcs7Pad payload))) payload.length) from rfl,
      encodeTransport_eq_spec]
    rfl
  · rw [toHexString_length, hk32]
  · rw [toHexString_length, hiv16]

theorem c6_wire_format_witness :
    (List.replicate 32 0 : Bytes).length = 32 ∧ (List.replicate 16 0 : Bytes).length = 16
    ∧ ([1, 2, 3, 4, 5] : Bytes).length ≤ MAX_FILE_SIZE
    ∧ ((encryptFileR idCipher [1, 2, 3, 4, 5]
          (List.replicate 32 0 ++ (List.replicate 16 0 ++ []))).1
        = .ok (specWireFormat (List.replicate 32 0) (List.replicate 16 0)
            (cbcEncrypt idCipher (List.replicate 32 0) (List.replicate 16 0)
              (pkcs7Pad [1, 2, 3, 4, 5])) ([1, 2, 3, 4, 5] : Bytes).length)
      ∧ specWireFormat (List.replicate 32 0) (List.replicate 16 0)
            (cbcEncrypt idCipher (List.replicate 32 0) (List.replicate 16 0)
              (pkcs7Pad [1, 2, 3, 4, 5])) ([1, 2, 3, 4, 5] : Bytes).length
          = specBase64UrlNoPad (utf8Encode (envelopeJsonString
              (toHexString (List.replicate 32 0)) (toHexString (List.replicate 16 0))
              (stdB64String (cbcEncrypt idCipher (List.replicate 32 0)
                (List.replicate 16 0) (pkcs7Pad [1, 2, 3, 4, 5])))
              ([1, 2, 3, 4, 5] : Bytes).length))
      ∧ (toHexString (List.replicate 32 0)).length = 64
      ∧ (toHexString (List.replicate 16 0)).length = 32) :=
  ⟨by decide, by decide, by decide,
    c6_wire_format idCipher (List.replicate 32 0) (List.replicate 16 0) [1, 2, 3, 4, 5] []
      (by decide) (by decide) (by decide)⟩

/-- C7: length recovery. For any input the validation pipeline accepts,
when the recorded length `s` is non-negative, below the `ToIndex` bound
`2 ^ 53` of `new Uint8Array(s)`, and at most the byte count of the
decrypted words, the delivered bytes are exactly the first `s` bytes of
the big-endian byte expansion of the decrypted 32-bit words — the padding
beyond `s` is discarded — and every delivered array has length exactly
`s`. (Within this claim's scope the bound costs nothing: a JavaScript
string holds fewer than `2 ^ 53` characters, so the decrypted words of a
real envelope always carry fewer than `2 ^ 53` bytes, and `s` is at most
that count here.) -/
theorem c7_length_recovery (C : BlockCipher) (data : String) (v : Json)
    (hval : decryptFileValidate data = .ok v)
    (hs0 : 0 ≤ asInt (getF v "s"))
    (hs53 : asInt (getF v "s") < 2 ^ 53)
    (hsle : (asInt (getF v "s")).toNat ≤ 4 * (decryptedWords C v).length) :
    decryptFileCore C data
      = .ok ((((decryptedWords C v).map wordBytes).flatten).take
          (asInt (getF v "s")).toNat)
    ∧ ∀ out, decryptFileCore C data = .ok out
        → out.length = (asInt (getF v "s")).toNat := by
  have hcore : decryptFileCore C data = decryptProcess C v := by
    rw [decryptFileCore, hval]
  have hproc : decryptProcess C v
      = .ok (copyLoop (decryptedWords C v) (asInt (getF v "s")).toNat) := by
    rw [decryptProcess]
    show (if asInt (getF v "s") < 0 ∨ 2 ^ 53 ≤ asInt (getF v "s") then
        Except.error JsError.invalidArrayLength
        else Except.ok (copyLoop (decryptedWords C v) (asInt (getF v "s")).toNat)) = _
    rw [two_pow_53_int] at hs53
    rw [if_neg (by rw [two_pow_53_int]; omega)]
  constructor
  · rw [hcore, hproc, copyLoop_take _ _ hsle]
  · intro out hout
    rw [hcore, hproc] at hout
    injection hout with h
    rw [← h]
    exact copyLoop_length _ _

theorem c7_length_recovery_witness :
    decryptFileValidate c7data = .ok c7v
    ∧ 0 ≤ asInt (getF c7v "s")
    ∧ asInt (getF c7v "s") < 2 ^ 53
    ∧ (asInt (getF c7v "s")).toNat ≤ 4 * (decryptedWords idCipher c7v).length
    ∧ (decryptFileCore idCipher c7data
        = .ok ((((decryptedWords idCipher c7v).map wordBytes).flatten).take
            (asInt (getF c7v "s")).toNat)
      ∧ ∀ out, decryptFileCore idCipher c7data = .ok out
          → out.length = (asInt (getF c7v "s")).toNat) :=
  ⟨rfl, by decide, by decide, by decide,
    c7_length_recovery idCipher c7data c7v rfl (by decide) (by decide) (by decide)⟩

theorem c4_size_check_first_witness :
    (List.replicate 10485761 0 : Bytes).length > MAX_FILE_SIZE
    ∧ (encryptFileR idCipher (List.replicate 10485761 0) [1, 2, 3]
        = (.error "File size exceeds 10MB limit", [1, 2, 3])
      ∧ ∀ C' : BlockCipher, encryptFileR C' (List.replicate 10485761 0) [1, 2, 3]
          = encryptFileR idCipher (List.replicate 10485761 0) [1, 2, 3]) :=
  ⟨by rw [List.length_replicate]; decide,
    c4_size_check_first idCipher (List.replicate 10485761 0) [1, 2, 3]
      (by rw [List.length_replicate]; decide)⟩

/-- C8: error surfacing, amended. No decode failure is swallowed: every
error raised inside `decryptFile` reaches the caller. But the message is
not verbatim — the surrounding catch re-raises it with the prefix
`Failed to decrypt file: ` prepended (see the counterexample); successful
results pass through unchanged. -/
theorem c8_error_surfacing (C : BlockCipher) (data : String) :
    (∀ e, decryptFileCore C data = .error e
        → decryptFile C data = .error ("Failed to decrypt file: " ++ e.message))
    ∧ (∀ bs, decryptFileCore C data = .ok bs → decryptFile C data = .ok bs) := by
  constructor
  · intro e he
    rw [decryptFile, he]
  · intro bs hbs
    rw [decryptFile, hbs]

/-- C8, counterexample to the claim as stated: on empty input the failing
validation step raises `No data provided for decryption`, but the caller
observes `Failed to decrypt file: No data provided for decryption` — the
same error, not the same message, so it is not surfaced verbatim. -/
theorem c8_counterexample :
    decryptFileCore idCipher "" = .error .emptyInput
    ∧ JsError.message .emptyInput = "No data provided for decryption"
    ∧ decryptFile idCipher ""
        = .error "Failed to decrypt file: No data provided for decryption"
    ∧ decryptFile idCipher "" ≠ .error "No data provided for decryption" := by
  refine ⟨rfl, rfl, rfl, ?_⟩
  intro h
  rw [show decryptFile idCipher ""
      = Except.error "Failed to decrypt file: No data provided for decryption" from rfl] at h
  exact absurd (Except.error.inj h) (by decide)

/-- C9: uniqueness, amended. Two encoder runs on the identical payload of 1
to 10485760 bytes that draw distinct key/IV material produce different
envelope strings, and each envelope independently decodes back to the same
original payload. (The claim's decode-back conjunct is false at the empty
payload: two distinct envelopes are still produced, but neither decodes
back, since the recorded length 0 is falsy and the validation rejects both
— see the counterexample.) -/
theorem c9_uniqueness (C : BlockCipher) (key1 iv1 key2 iv2 payload : Bytes)
    (hC1 : GoodCipherKey C key1) (hC2 : GoodCipherKey C key2)
    (hk1 : key1.length = 32) (hkb1 : ∀ x ∈ key1, x < 256)
    (hi1 : iv1.length = 16) (hib1 : ∀ x ∈ iv1, x < 256)
    (hk2 : key2.length = 32) (hkb2 : ∀ x ∈ key2, x < 256)
    (hi2 : iv2.length = 16) (hib2 : ∀ x ∈ iv2, x < 256)
    (hp : ∀ x ∈ payload, x < 256) (hp1 : 1 ≤ payload.length)
    (hple : payload.length ≤ MAX_FILE_SIZE)
    (hne : key1 ≠ key2 ∨ iv1 ≠ iv2) :
    encryptFileCore C key1 iv1 payload ≠ encryptFileCore C key2 iv2 payload
    ∧ decryptFile C (encryptFileCore C key1 iv1 payload) = .ok payload
    ∧ decryptFile C (encryptFileCore C key2 iv2 payload) = .ok payload := by
  refine ⟨?_,
    decryptFile_encryptFileCore C key1 iv1 payload hC1 hk1 hkb1 hi1 hib1 hp hp1 hple,
    decryptFile_encryptFileCore C key2 iv2 payload hC2 hk2 hkb2 hi2 hib2 hp hp1 hple⟩
  intro heq
  have h1 := decryptFileValidate_encrypt C key1 iv1 payload hC1 hk1 hkb1 hi1 hib1 hp hp1
  have h2 := decryptFileValidate_encrypt C key2 iv2 payload hC2 hk2 hkb2 hi2 hib2 hp hp1
  rw [heq, h2] at h1
  obtain ⟨hk, hi, _, _⟩ := envJson_inj _ _ _ _ _ _ _ _ (Except.ok.inj h1)
  rcases hne with hne | hne
  · exact hne (toHexString_inj key1 key2 hkb1 hkb2 hk.symm)
  · exact hne (toHexString_inj iv1 iv2 hib1 hib2 hi.symm)

theorem c9_uniqueness_witness :
    (List.replicate 32 0 : Bytes) ≠ List.replicate 32 1
    ∧ (encryptFileCore idCipher (List.replicate 32 0) (List.replicate 16 0) [1, 2, 3, 4, 5]
        ≠ encryptFileCore idCipher (List.replicate 32 1) (List.replicate 16 0) [1, 2, 3, 4, 5]
      ∧ decryptFile idCipher (encryptFileCore idCipher (List.replicate 32 0)
          (List.replicate 16 0) [1, 2, 3, 4, 5]) = .ok [1, 2, 3, 4, 5]
      ∧ decryptFile idCipher (encryptFileCore idCipher (List.replicate 32 1)
          (List.replicate 16 0) [1, 2, 3, 4, 5]) = .ok [1, 2, 3, 4, 5]) :=
  ⟨by decide,
    c9_uniqueness idCipher (List.replicate 32 0) (List.replicate 16 0)
      (List.replicate 32 1) (List.replicate 16 0) [1, 2, 3, 4, 5]
      (idCipher_good _) (idCipher_good _) (by decide) (by decide) (by decide) (by decide)
      (by decide) (by decide) (by decide) (by decide) (by decide) (by decide) (by decide)
      (Or.inl (by decide))⟩

/-- C9, counterexample to the claim as stated: at the empty payload —
identical input to both encoder runs — distinct key/IV material still
produces two different envelope strings, but neither envelope decodes back
to the payload: both are rejected with `Incomplete file data`, because the
recorded length 0 is falsy. -/
theorem c9_counterexample :
    encryptFileCore idCipher (List.replicate 32 3) (List.replicate 16 3) []
      ≠ encryptFileCore idCipher (List.replicate 32 5) (List.replicate 16 5) []
    ∧ decryptFile idCipher (encryptFileCore idCipher (List.replicate 32 3)
        (List.replicate 16 3) []) = .error "Failed to decrypt file: Incomplete file data"
    ∧ decryptFile idCipher (encryptFileCore idCipher (List.replicate 32 5)
        (List.replicate 16 5) []) = .error "Failed to decrypt file: Incomplete file data"
    ∧ decryptFile idCipher (encryptFileCore idCipher (List.replicate 32 3)
        (List.replicate 16 3) []) ≠ .ok []
    ∧ decryptFile idCipher (encryptFileCore idCipher (List.replicate 32 5)
        (List.replicate 16 5) []) ≠ .ok [] := by
  refine ⟨by decide, rfl, rfl, ?_, ?_⟩
  · intro h
    rw [show decryptFile idCipher (encryptFileCore idCipher (List.replicate 32 3)
        (List.replicate 16 3) [])
      = Except.error "Failed to decrypt file: Incomplete file data" from rfl] at h
    exact Except.noConfusion h
  · intro h
    rw [show decryptFile idCipher (encryptFileCore idCipher (List.replicate 32 5)
        (List.replicate 16 5) [])
      = Except.error "Failed to decrypt file: Incomplete file data" from rfl] at h
    exact Except.noConfusion h

/-- C10: an overlong recorded length, amended. For any accepted envelope
whose `s` field exceeds the byte count of the decrypted words but stays
below the `ToIndex` bound `2 ^ 53` of `new Uint8Array(s)`, the decoder
raises no error: it delivers exactly `s` bytes — the decrypted bytes
followed by zeros — and the copy loop never writes past the output buffer,
which the total-function model of the loop exhibits by construction. (The
claim is false without the bound: at `s = 2 ^ 53` the buffer allocation
must throw a `RangeError`, which the catch block surfaces as an error —
see the counterexample.) -/
theorem c10_overlong_zero_fill (C : BlockCipher) (data : String) (v : Json)
    (hval : decryptFileValidate data = .ok v)
    (hs0 : 0 ≤ asInt (getF v "s"))
    (hs53 : asInt (getF v "s") < 2 ^ 53)
    (hgt : 4 * (decryptedWords C v).length < (asInt (getF v "s")).toNat) :
    decryptFileCore C data
      = .ok (((decryptedWords C v).map wordBytes).flatten
          ++ List.replicate
              ((asInt (getF v "s")).toNat - 4 * (decryptedWords C v).length) 0)
    ∧ ∀ out, decryptFileCore C data = .ok out
        → out.length = (asInt (getF v "s")).toNat := by
  have hcore : decryptFileCore C data = decryptProcess C v := by
    rw [decryptFileCore, hval]
  have hproc : decryptProcess C v
      = .ok (copyLoop (decryptedWords C v) (asInt (getF v "s")).toNat) := by
    rw [decryptProcess]
    show (if asInt (getF v "s") < 0 ∨ 2 ^ 53 ≤ asInt (getF v "s") then
        Except.error JsError.invalidArrayLength
        else Except.ok (copyLoop (decryptedWords C v) (asInt (getF v "s")).toNat)) = _
    rw [two_pow_53_int] at hs53
    rw [if_neg (by rw [two_pow_53_int]; omega)]
  constructor
  · rw [hcore, hproc, copyLoop_over _ _ (by omega)]
  · intro out hout
    rw [hcore, hproc] at hout
    injection hout with h
    rw [← h]
    exact copyLoop_length _ _

theorem c10_overlong_zero_fill_witness :
    decryptFileValidate (encodeTransport (envelopeJsonString "00" "00" "AAAA" 100))
        = .ok (envJson "00" "00" "AAAA" 100)
    ∧ 0 ≤ asInt (getF (envJson "00" "00" "AAAA" 100) "s")
    ∧ asInt (getF (envJson "00" "00" "AAAA" 100) "s") < 2 ^ 53
    ∧ 4 * (decryptedWords idCipher (envJson "00" "00" "AAAA" 100)).length
        < (asInt (getF (envJson "00" "00" "AAAA" 100) "s")).toNat
    ∧ (decryptFileCore idCipher (encodeTransport (envelopeJsonString "00" "00" "AAAA" 100))
        = .ok (((decryptedWords idCipher (envJson "00" "00" "AAAA" 100)).map
              wordBytes).flatten
            ++ List.replicate
                ((asInt (getF (envJson "00" "00" "AAAA" 100) "s")).toNat
                  - 4 * (decryptedWords idCipher (envJson "00" "00" "AAAA" 100)).length) 0)
      ∧ ∀ out, decryptFileCore idCipher
            (encodeTransport (envelopeJsonString "00" "00" "AAAA" 100)) = .ok out
          → out.length = (asInt (getF (envJson "00" "00" "AAAA" 100) "s")).toNat) :=
  ⟨rfl, by decide, by decide, by decide,
    c10_overlong_zero_fill idCipher
      (encodeTransport (envelopeJsonString "00" "00" "AAAA" 100))
      (envJson "00" "00" "AAAA" 100) rfl (by decide) (by decide) (by decide)⟩

/-- C10, counterexample to the claim as stated: the envelope recording
`s = 9007199254740992` (exactly `2 ^ 53`, a value `JSON.parse` represents
exactly) passes every validation stage and its `s` exceeds the byte count
of the decrypted words, yet the decoder does raise an error: `ToIndex`
makes `new Uint8Array(s)` throw a `RangeError` for this length, which the
catch block surfaces — no byte array of length `s` is delivered. -/
theorem c10_counterexample :
    decryptFileValidate
        (encodeTransport (envelopeJsonString "00" "00" "AAAA" 9007199254740992))
        = .ok (envJson "00" "00" "AAAA" 9007199254740992)
    ∧ 4 * (decryptedWords idCipher (envJson "00" "00" "AAAA" 9007199254740992)).length
        < (asInt (getF (envJson "00" "00" "AAAA" 9007199254740992) "s")).toNat
    ∧ decryptFileCore idCipher
        (encodeTransport (envelopeJsonString "00" "00" "AAAA" 9007199254740992))
        = .error .invalidArrayLength
    ∧ decryptFile idCipher
        (encodeTransport (envelopeJsonString "00" "00" "AAAA" 9007199254740992))
        = .error "Failed to decrypt file: Invalid typed array length"
    ∧ ∀ out : Bytes, decryptFileCore idCipher
        (encodeTransport (envelopeJsonString "00" "00" "AAAA" 9007199254740992))
        ≠ .ok out := by
  refine ⟨rfl, by decide, rfl, rfl, ?_⟩
  intro out h
  rw [show decryptFileCore idCipher
      (encodeTransport (envelopeJsonString "00" "00" "AAAA" 9007199254740992))
    = Except.error JsError.invalidArrayLength from rfl] at h
  exact Except.noConfusion h

end SecureStorage
